import Mathlib

/-!
# Verified model of the imdb_framework core

Shallow embedding of the quantizer, histogram builder, inverted index,
query engine, ordered output buffer, file-list sampler and GIST filter-bank
parameters of the imdb image-retrieval library, together with proofs about
the behaviour of these operations.

Modelling conventions:
* `float`/`double` arithmetic is modelled exactly: over `ℚ` on the purely
  rational code paths and over `ℝ` where `exp`, `sqrt` or real powers occur.
* `std::vector<T>` is `List`.
* Fallible or partially-defined spots (uninitialised reads, divisions whose
  divisor can be zero) are modelled with explicit hypotheses in the theorems.
-/

namespace Imdb

/-! ## Distances (util/quantizer.hpp, search tools)

The distance functor instantiated by the histogram tools
(`src/tools/compute_histvw/main.cpp`, line 129) is `l2norm_squared`. -/

/-- Modelled from the spec: the file `distance.hpp` declaring the distance
functors is not under `src/`; per spec §4.F and §4.I the metric
`l2norm_squared` used by the quantization tools is squared-Euclidean
distance, the sum of squared componentwise differences over the common
length of the two vectors. -/
def l2norm_squared (x y : List ℚ) : ℚ :=
  ((x.zip y).map (fun p => (p.1 - p.2) * (p.1 - p.2))).sum

/-! ## Hard quantization (src/util/quantizer.hpp, lines 43-67) -/

/-- Model of `std::vector<float>::resize(n)`: keep the first `n` entries, append
value-initialised (zero) entries if the vector was shorter than `n`. -/
def vecResize (v : List ℚ) (n : ℕ) : List ℚ :=
  v.take n ++ List.replicate (n - v.length) 0

/-- The scan loop of `quantize_hard::operator()` (quantizer.hpp lines 52-65):
running state is `(closest, minDistance)`, starting at
`(0, FLT_MAX)`; the initial `FLT_MAX` is modelled by `none`, which every
computed distance compares below.  The update condition is
`distance <= minDistance`, exactly as in the source. -/
def hardScanAux (sample : List ℚ) : ℕ → ℕ → Option ℚ → List (List ℚ) → ℕ × Option ℚ
  | _, closest, minDist, [] => (closest, minDist)
  | i, _, none, w :: ws => hardScanAux sample (i + 1) i (some (l2norm_squared sample w)) ws
  | i, closest, some m, w :: ws =>
    if l2norm_squared sample w ≤ m then
      hardScanAux sample (i + 1) i (some (l2norm_squared sample w)) ws
    else
      hardScanAux sample (i + 1) closest (some m) ws

/-- The full scan of `quantize_hard::operator()` over the vocabulary. -/
def hardScan (sample : List ℚ) (vocabulary : List (List ℚ)) : ℕ × Option ℚ :=
  hardScanAux sample 0 0 none vocabulary

/-- Model of `quantize_hard::operator()(sample, vocabulary, quantized_sample)`:
resize the caller-supplied output vector to the vocabulary size, then write
a single `1` at the winning index.  All other slots keep whatever the
resized vector held (the source carries a TODO noting that entries are not
reset to zero). -/
def quantize_hard (sample : List ℚ) (vocabulary : List (List ℚ))
    (quantized_sample : List ℚ) : List ℚ :=
  (vecResize quantized_sample vocabulary.length).set (hardScan sample vocabulary).1 1

/-- One-hot vector of length `K` with the `1` at index `c`. -/
def oneHot (K c : ℕ) : List ℚ := (List.replicate K (0 : ℚ)).set c 1

/-- Distance from `sample` to centroid `j` of `vocabulary` (missing indices
read as the empty centroid, never reached under the bounds used below). -/
def centroidDist (sample : List ℚ) (vocabulary : List (List ℚ)) (j : ℕ) : ℚ :=
  l2norm_squared sample (vocabulary.getD j [])

/-- Claim-side definition, following the spec text for hard quantization:
`c* = argmin_c dist(x, c)` with ties broken toward the LOWEST centroid
index (`find?` returns the first index attaining the minimum). -/
def argminLow (sample : List ℚ) (vocabulary : List (List ℚ)) : ℕ :=
  ((List.range vocabulary.length).find? (fun i =>
    decide (∀ j, j < vocabulary.length →
      centroidDist sample vocabulary i ≤ centroidDist sample vocabulary j))).getD 0

/-! ## Histogram of visual words (src/util/quantizer.cpp, lines 25-98) -/

/-- C-style `static_cast<int>` of a (finite) rational value: truncation
toward zero. -/
def ratTrunc (q : ℚ) : ℤ := q.num.tdiv q.den

/-- Cell index computation of `build_histvw` (quantizer.cpp lines 62-71):
`x = (int)(pos.x * res)` with the `x == res` correction for coordinate
exactly `1.0`, same for `y`, then the linear index `y*res + x`. -/
def cellIndex (res : ℕ) (p : List ℚ) : ℤ :=
  let x0 := ratTrunc (p.getD 0 0 * res)
  let x := if x0 = (res : ℤ) then x0 - 1 else x0
  let y0 := ratTrunc (p.getD 1 0 * res)
  let y := if y0 = (res : ℤ) then y0 - 1 else y0
  y * res + x

/-- Offset of the spatial cell in the histogram: `vocabularySize * idx`
(quantizer.cpp line 74). -/
def cellOffset (K res : ℕ) (p : List ℚ) : ℕ := K * (cellIndex res p).toNat

/-- Inner accumulation loop of `build_histvw` (quantizer.cpp lines 81-83):
`histvw[offset+j] += quantized_features[i][j]` for `j < K`. -/
def addFeature (hist : List ℚ) (off K : ℕ) (q : List ℚ) : List ℚ :=
  hist.enum.map (fun jv =>
    if off ≤ jv.1 ∧ jv.1 < off + K then jv.2 + q.getD (jv.1 - off) 0 else jv.2)

/-- Outer loop of `build_histvw` (quantizer.cpp lines 45-84): one
`addFeature` per quantized feature, at the offset of its spatial cell
(offset `0` whenever `res = 1`; positions are only read when `res > 1`). -/
def histLoop (K res : ℕ) : List (List ℚ) → List (List ℚ) → List ℚ → List ℚ
  | [], _, hist => hist
  | q :: qs, ps, hist =>
    histLoop K res qs ps.tail
      (addFeature hist (if 1 < res then cellOffset K res (ps.headD []) else 0) K q)

/-- Model of `build_histvw(quantized_features, vocabularySize, histvw, normalize,
positions, res)` (quantizer.cpp lines 25-98): accumulate into a zero vector
of length `res*res*vocabularySize`, then optionally divide by the sample
count (only when it is non-zero). -/
def build_histvw (quantized_features : List (List ℚ)) (vocabularySize : ℕ)
    (normalize : Bool) (positions : List (List ℚ)) (res : ℕ) : List ℚ :=
  if normalize ∧ 0 < quantized_features.length then
    (histLoop vocabularySize res quantized_features positions
      (List.replicate (res * res * vocabularySize) 0)).map
      (fun v => v / (quantized_features.length : ℚ))
  else
    histLoop vocabularySize res quantized_features positions
      (List.replicate (res * res * vocabularySize) 0)

/-- Component `c` of the sum of the `res²` per-cell slices of length `K` of
a spatial-pyramid histogram. -/
def cellsSum (hist : List ℚ) (K res c : ℕ) : ℚ :=
  ∑ m ∈ Finset.range (res * res), hist.getD (m * K + c) 0

/-! ## File-list sampling (src/io/filelist.cpp, lines 118-137) -/

/-- Model of `FileList::random_sample(new_size, seed)`: if `new_size >= size` the
list is unchanged; otherwise shuffle the index array `0..size-1`, truncate
to `new_size`, sort ascending, and keep the files at the surviving indices.
The `boost::mt19937`-driven `std::random_shuffle` is modelled by an
arbitrary permutation `shuffled` of `0..size-1` (every seed produces some
such permutation, so theorems quantified over `shuffled` cover every seed).
`std::sort` on the duplicate-free index list is modelled by
`insertionSort`; any correct sort of a duplicate-free list produces the
same (unique) sorted result. -/
def random_sample (files : List String) (new_size : ℕ) (shuffled : List ℕ) : List String :=
  if files.length ≤ new_size then files
  else
    (List.insertionSort (· ≤ ·) (shuffled.take new_size)).map (fun i => files.getD i default)

/-! ## Ordered output buffer
(src/tools/compute_descriptors/ordered_push_back.cpp, lines 10-30)

`OrderedPushBack` holds a `std::priority_queue` of
`(index, element)` pairs with the `std::greater` comparator: the pair with
the smallest index is on top.  Under the distinct-index precondition
enforced by the driver (`assert(index >= _numWrittenElements)` plus
exactly-once processing) no two queued pairs share an index, so the
observable top/pop behaviour of the queue coincides with a list kept sorted by
ascending index, which is how it is modelled here.  The opaque
`boost::any` payload is a type parameter. -/

/-- Insertion into the index-sorted queue (models `queue.push`). -/
def opbInsert {α : Type} (x : ℕ × α) : List (ℕ × α) → List (ℕ × α)
  | [] => [x]
  | y :: ys => if x.1 ≤ y.1 then x :: y :: ys else y :: opbInsert x ys

/-- The drain loop of `OrderedPushBack::push_back` (lines 22-27): while the
top of the queue has exactly the next expected index, forward its element to
the writer, pop it and advance the counter.  Returns the forwarded
elements in order, the remaining queue, and the new counter. -/
def opbDrain {α : Type} : List (ℕ × α) → ℕ → List α × List (ℕ × α) × ℕ
  | [], n => ([], [], n)
  | (i, v) :: rest, n =>
    if i = n then
      ((opbDrain rest (n + 1)).1.cons v, (opbDrain rest (n + 1)).2.1,
        (opbDrain rest (n + 1)).2.2)
    else ([], (i, v) :: rest, n)

/-- State of an `OrderedPushBack`: the pending queue, the elements already
forwarded to the underlying writer (in order), and `_numWrittenElements`. -/
structure OPBState (α : Type) where
  queue : List (ℕ × α)
  written : List α
  numWritten : ℕ

/-- Model of `OrderedPushBack::push_back(index, element)`: push the pair, then drain
every queued pair whose index equals the next expected sequence number. -/
def opbPush {α : Type} (st : OPBState α) (x : ℕ × α) : OPBState α :=
  ⟨(opbDrain (opbInsert x st.queue) st.numWritten).2.1,
    st.written ++ (opbDrain (opbInsert x st.queue) st.numWritten).1,
    (opbDrain (opbInsert x st.queue) st.numWritten).2.2⟩

/-- Run a sequence of `push_back` calls against a fresh buffer. -/
def opbRun {α : Type} (pushes : List (ℕ × α)) : OPBState α :=
  pushes.foldl opbPush ⟨[], [], 0⟩

/-- The least index missing from `s`. -/
def firstGap (s : List ℕ) : ℕ :=
  Nat.find (show ∃ k, k ∉ s from ⟨s.sum + 1, fun h => by
    have := List.single_le_sum (fun (x : ℕ) _ => Nat.zero_le x) _ h
    omega⟩)

/-- The element pushed with index `i`, if any. -/
def pushedAt {α : Type} (pushes : List (ℕ × α)) (i : ℕ) : Option α :=
  (pushes.find? (fun q => q.1 == i)).map Prod.snd

/-- The elements whose indices form the longest contiguous range
`0..n-1` contained in the pushed index set, in ascending index order. -/
def opbTarget {α : Type} (pushes : List (ℕ × α)) : List α :=
  (List.range (firstGap (pushes.map Prod.fst))).filterMap (pushedAt pushes)

/-! ## GIST Gabor filter-bank parameters (src/descriptors/gist.cpp) -/

/-- Configuration of `gist_generator` relevant to the filter peak
frequencies (gist.cpp lines 32-47): `_width = _realwidth + _padding` and
`_height = _realheight + _padding` are set in the constructor initialiser
list. -/
structure GistParams where
  padding : ℕ
  realwidth : ℕ
  realheight : ℕ
  max_peak_freq : ℝ
  delta_freq_oct : ℝ

/-- Field `_width` of the generator: working width plus padding. -/
def gist_width (p : GistParams) : ℕ := p.realwidth + p.padding

/-- Field `_height` of the generator: working height plus padding. -/
def gist_height (p : GistParams) : ℕ := p.realheight + p.padding

/-- Value `delta_freq = pow(2.0, _delta_freq_oct)` (gist.cpp line 153). -/
noncomputable def delta_freq (p : GistParams) : ℝ := (2 : ℝ) ^ p.delta_freq_oct

/-- Value `max_extend = max(_width, _height)` (gist.cpp line 156). -/
noncomputable def max_extend (p : GistParams) : ℝ :=
  ((max (gist_width p) (gist_height p) : ℕ) : ℝ)

/-- Value `pad_max_peak_freq = max_extend * _max_peak_freq / (max_extend + _padding)`
(gist.cpp line 157). -/
noncomputable def pad_max_peak_freq (p : GistParams) : ℝ :=
  max_extend p * p.max_peak_freq / (max_extend p + (p.padding : ℝ))

/-- Value `curPeak = pad_max_peak_freq / pow(delta_freq, i)` (gist.cpp line 165):
the centre frequency of the filters generated for frequency index `i`;
`pow` at a natural exponent is the iterated product. -/
noncomputable def curPeak (p : GistParams) (i : ℕ) : ℝ :=
  pad_max_peak_freq p / (delta_freq p) ^ i

/-- Claim-side definition, following the spec text: the peak frequency
`f_i = fmax · 2^(−i·Δf_oct)` where `fmax` is the configured
max-peak-frequency parameter. -/
noncomputable def specPeak (p : GistParams) (i : ℕ) : ℝ :=
  p.max_peak_freq * (2 : ℝ) ^ (-(i : ℝ) * p.delta_freq_oct)

/-! ## Fuzzy quantization (src/util/quantizer.hpp, lines 87-113) -/

/-- Modelled from the spec (like `l2norm_squared` above): squared-Euclidean
distance of real vectors, the metric the histogram tool instantiates the
quantizers with. -/
noncomputable def l2norm_squaredR (x y : List ℝ) : ℝ :=
  ((x.zip y).map (fun p => (p.1 - p.2) * (p.1 - p.2))).sum

/-- Unnormalised weights of `quantize_fuzzy::operator()` (quantizer.hpp
lines 95-104): for each centroid `w`, `d = dist(sample, w)` — the
configured distance functor, i.e. the squared-Euclidean distance — and
`e = exp(-d*d / (2*sigma*sigma))`. -/
noncomputable def fuzzyWeights (sigma : ℝ) (sample : List ℝ)
    (vocabulary : List (List ℝ)) : List ℝ :=
  vocabulary.map (fun w =>
    Real.exp (-(l2norm_squaredR sample w * l2norm_squaredR sample w) /
      (2 * sigma * sigma)))

/-- Model of `quantize_fuzzy::operator()`: resize to the vocabulary size, assign
every slot its Gaussian weight (so the caller-supplied vector never
influences the result), then divide every slot by the accumulated sum
(L1 normalisation, lines 111-112). -/
noncomputable def quantize_fuzzy (sigma : ℝ) (sample : List ℝ)
    (vocabulary : List (List ℝ)) : List ℝ :=
  (fuzzyWeights sigma sample vocabulary).map
    (fun e => e / (fuzzyWeights sigma sample vocabulary).sum)

/-- Claim-side definition, following the words of the claim: component `c`
proportional to `exp(−d(x,c)²/(2σ²))` where `d(x,c)` is the EUCLIDEAN
distance, i.e. `d²` is the squared-Euclidean distance. -/
noncomputable def fuzzyWeightsClaim (sigma : ℝ) (sample : List ℝ)
    (vocabulary : List (List ℝ)) : List ℝ :=
  vocabulary.map (fun w =>
    Real.exp (-(l2norm_squaredR sample w) / (2 * sigma * sigma)))

/-- Claim-side fuzzy quantization: the claimed weights, L1-normalised. -/
noncomputable def quantize_fuzzy_claim (sigma : ℝ) (sample : List ℝ)
    (vocabulary : List (List ℝ)) : List ℝ :=
  (fuzzyWeightsClaim sigma sample vocabulary).map
    (fun e => e / (fuzzyWeightsClaim sigma sample vocabulary).sum)

/-! ## Inverted index (src/search/inverted_index.cpp)

`tf` and `idf` are pluggable function objects (their concrete
implementations live outside `src/`); they are modelled as arbitrary
function parameters with the argument lists of the calls in
`apply_tfidf`: `tf(this, term_id, doc_id, list_id)` and
`idf(&collection_index, term_id)`. -/

/-- State of an `InvertedIndex` (member variables of the class as used by
inverted_index.cpp). `_uniqueWords` is a `std::set`, modelled as a
`Finset`. -/
structure InvertedIndex where
  numWords : ℕ
  ft : List ℕ
  Ft : List ℝ
  docFrequencyList : List (List (ℕ × ℝ))
  docWeightList : List (List ℝ)
  documentSizes : List ℝ
  documentUniqueSizes : List ℕ
  uniqueWords : Finset ℕ
  numDocuments : ℕ
  avgDocLen : ℝ
  avgUniqueDocLen : ℝ
  finalized : Bool

/-- Model of `InvertedIndex::init(num_words)` (inverted_index.cpp lines 239-260):
zeroed statistics, empty posting lists, `finalized = false`. -/
noncomputable def InvertedIndex.init (num_words : ℕ) : InvertedIndex :=
  ⟨num_words, List.replicate num_words 0, List.replicate num_words 0,
    List.replicate num_words [], List.replicate num_words [],
    [], [], ∅, 0, 0, 0, false⟩

/-- Model of `InvertedIndex::addHistogram(h)` (inverted_index.cpp lines 33-73): for
every term `t` with `h[t] ≠ 0`, bump `f_t`, add to `F_t`, append the pair
`(numDocuments, h[t])` to posting list `t` and insert `t` into the unique
word set; push the document totals and bump the document count; clear
`finalized`. -/
noncomputable def addHistogram (idx : InvertedIndex) (h : List ℝ) : InvertedIndex :=
  { idx with
    finalized := false
    ft := List.zipWith (fun c ht => if ht ≠ 0 then c + 1 else c) idx.ft h
    Ft := List.zipWith (fun c ht => if ht ≠ 0 then c + ht else c) idx.Ft h
    docFrequencyList := List.zipWith
      (fun lst ht => if ht ≠ 0 then lst ++ [(idx.numDocuments, ht)] else lst)
      idx.docFrequencyList h
    uniqueWords := idx.uniqueWords ∪
      ((h.enum.filter (fun p => decide (p.2 ≠ 0))).map Prod.fst).toFinset
    documentSizes := idx.documentSizes ++ [(h.filter (fun v => decide (v ≠ 0))).sum]
    documentUniqueSizes := idx.documentUniqueSizes ++
      [(h.filter (fun v => decide (v ≠ 0))).length]
    numDocuments := idx.numDocuments + 1 }

/-- The tf·idf weights before L2 normalisation (`apply_tfidf`, first loop,
inverted_index.cpp lines 102-131): `w = tf(this, t, doc, l) * idf(&coll, t)`
for posting `l` of term `t`. -/
noncomputable def preWeightList (idx coll : InvertedIndex)
    (tf : InvertedIndex → ℕ → ℕ → ℕ → ℝ) (idf : InvertedIndex → ℕ → ℝ) :
    List (List ℝ) :=
  idx.docFrequencyList.enum.map (fun tl =>
    tl.2.enum.map (fun lp => tf idx tl.1 lp.2.1 lp.1 * idf coll tl.1))

/-- Value of `documentLengths[d]` before the square root (`apply_tfidf`, line 126):
the sum of `weight*weight` over every posting of document `d`, across all
terms. -/
noncomputable def documentLengthSq (idx coll : InvertedIndex)
    (tf : InvertedIndex → ℕ → ℕ → ℕ → ℝ) (idf : InvertedIndex → ℕ → ℝ)
    (d : ℕ) : ℝ :=
  ((idx.docFrequencyList.zip (preWeightList idx coll tf idf)).map
    (fun tp => (((tp.1.zip tp.2).filter (fun q => decide (q.1.1 = d))).map
      (fun q => q.2 * q.2)).sum)).sum

/-- Model of `InvertedIndex::apply_tfidf` (inverted_index.cpp lines 95-150): store
each weight divided by `sqrt` of the accumulated squared
length of its document. -/
noncomputable def applyTfidf (idx coll : InvertedIndex)
    (tf : InvertedIndex → ℕ → ℕ → ℕ → ℝ) (idf : InvertedIndex → ℕ → ℝ) :
    InvertedIndex :=
  { idx with
    docWeightList :=
      (idx.docFrequencyList.zip (preWeightList idx coll tf idf)).map
        (fun tp => (tp.1.zip tp.2).map
          (fun q => q.2 / Real.sqrt (documentLengthSq idx coll tf idf q.1.1))) }

/-- The divisor of the average-document-length computations in
`InvertedIndex::finalize` (inverted_index.cpp line 80):
`_documentSizes.size()`, used without a zero guard. -/
noncomputable def finalizeDivisor (idx : InvertedIndex) : ℝ :=
  (idx.documentSizes.length : ℝ)

/-- Model of `InvertedIndex::finalize(collection_index, tf, idf)` (inverted_index.cpp
lines 75-91): compute the average document lengths, apply tf·idf weighting
with L2 normalisation, set `finalized`. -/
noncomputable def finalize (idx coll : InvertedIndex)
    (tf : InvertedIndex → ℕ → ℕ → ℕ → ℝ) (idf : InvertedIndex → ℕ → ℝ) :
    InvertedIndex :=
  { applyTfidf idx coll tf idf with
    avgDocLen := idx.documentSizes.sum / finalizeDivisor idx
    avgUniqueDocLen := (idx.documentUniqueSizes.map (fun n => (n : ℝ))).sum /
      (idx.documentUniqueSizes.length : ℝ)
    finalized := true }

/-- The stored weight vector of document `d`: the weights of all postings
referring to `d`, across all terms (term-major order). -/
noncomputable def docWeightVector (idx : InvertedIndex) (d : ℕ) : List ℝ :=
  ((idx.docFrequencyList.zip idx.docWeightList).map
    (fun tp => ((tp.1.zip tp.2).filter (fun q => decide (q.1.1 = d))).map
      (fun q => q.2))).flatten

/-- Euclidean norm of a vector. -/
noncomputable def l2norm (v : List ℝ) : ℝ :=
  Real.sqrt ((v.map (fun x => x * x)).sum)

/-- The tf·idf weights of the postings of document `d`, per term and before
L2 normalisation (used to state the theorems about `apply_tfidf`). -/
noncomputable def docTermPreWeights (idx coll : InvertedIndex)
    (tf : InvertedIndex → ℕ → ℕ → ℕ → ℝ) (idf : InvertedIndex → ℕ → ℝ)
    (d : ℕ) : List (List ℝ) :=
  idx.docFrequencyList.enum.map (fun tl =>
    (tl.2.enum.filter (fun lp => decide (lp.2.1 = d))).map
      (fun lp => tf idx tl.1 lp.2.1 lp.1 * idf coll tl.1))

/-! ## Query engine (src/search/inverted_index.cpp, lines 154-236) -/

/-- The `std::greater`-induced strict order on accumulator entries
`(score, doc_id)`: `dist_idx_t` is `std::pair<double, index_t>` and pairs
compare lexicographically. -/
def pLt (a b : ℝ × ℕ) : Prop := a.1 < b.1 ∨ (a.1 = b.1 ∧ a.2 < b.2)

/-- The matching non-strict pair order. -/
def pLe (a b : ℝ × ℕ) : Prop := a.1 < b.1 ∨ (a.1 = b.1 ∧ a.2 ≤ b.2)

noncomputable instance : DecidableRel pLe := fun a b =>
  inferInstanceAs (Decidable (a.1 < b.1 ∨ (a.1 = b.1 ∧ a.2 ≤ b.2)))

instance : IsTotal (ℝ × ℕ) pLe :=
  ⟨by
    intro a b
    rw [pLe, pLe]
    rcases lt_trichotomy a.1 b.1 with h | h | h
    · exact Or.inl (Or.inl h)
    · rcases Nat.le_total a.2 b.2 with h2 | h2
      · exact Or.inl (Or.inr ⟨h, h2⟩)
      · exact Or.inr (Or.inr ⟨h.symm, h2⟩)
    · exact Or.inr (Or.inl h)⟩

instance : IsTrans (ℝ × ℕ) pLe :=
  ⟨by
    intro a b c hab hbc
    rw [pLe] at hab hbc ⊢
    rcases hab with h1 | ⟨h1, h1n⟩ <;> rcases hbc with h2 | ⟨h2, h2n⟩
    · exact Or.inl (lt_trans h1 h2)
    · exact Or.inl (h2 ▸ h1)
    · exact Or.inl (h1 ▸ h2)
    · exact Or.inr ⟨h1.trans h2, le_trans h1n h2n⟩⟩

instance : IsAntisymm (ℝ × ℕ) pLe :=
  ⟨by
    intro a b hab hba
    rw [pLe] at hab hba
    rcases hab with h1 | ⟨h1, h1n⟩ <;> rcases hba with h2 | ⟨h2, h2n⟩ <;>
      [skip; skip; skip; exact Prod.ext h1 (le_antisymm h1n h2n)] <;> exfalso
    · exact lt_asymm h1 h2
    · exact absurd h1 (by rw [h2]; exact lt_irrefl _)
    · exact absurd h2 (by rw [h1]; exact lt_irrefl _)⟩

/-- One step of the bounded min-heap scan (`query`, lines 219-223):
`queue.push(...)`, then `queue.pop()` when the size exceeds `numResults`.
The heap is modelled as an ascending `pLe`-sorted list: since all pushed
pairs carry distinct `doc_id`s, `pLe` is a total order without ties on
them, so the top/pop behaviour of the heap is exactly that of the sorted
list. -/
noncomputable def pqStep (numResults : ℕ) (queue : List (ℝ × ℕ)) (p : ℝ × ℕ) :
    List (ℝ × ℕ) :=
  if numResults < (List.orderedInsert pLe p queue).length then
    (List.orderedInsert pLe p queue).tail
  else
    List.orderedInsert pLe p queue

/-- The one-document index built from the query histogram (`query`, lines
176-178): add the histogram to a fresh index of the same dimension and
finalize against the target index as the collection-statistics source. -/
noncomputable def queryIndex (idx : InvertedIndex)
    (tf : InvertedIndex → ℕ → ℕ → ℕ → ℝ) (idf : InvertedIndex → ℕ → ℝ)
    (histogram : List ℝ) : InvertedIndex :=
  finalize (addHistogram (InvertedIndex.init idx.numWords) histogram) idx tf idf

/-- Weight `wqt`: tf·idf weight of term `t` in the query mini-index (`query`, line
191, `doc_weight_list()[term_id][0]`). -/
noncomputable def queryWqt (idx : InvertedIndex)
    (tf : InvertedIndex → ℕ → ℕ → ℕ → ℝ) (idf : InvertedIndex → ℕ → ℝ)
    (histogram : List ℝ) (t : ℕ) : ℝ :=
  (((queryIndex idx tf idf histogram).docWeightList.getD t []).getD 0 0)

/-- The accumulator array of `query` (lines 182-209) as a function of the
document id: for every unique term `t` of the query index, every posting
`(d, r)` of list `t` of the target index contributes `w_dt * w_qt` to
`accumulators[d]`. -/
noncomputable def queryAcc (idx : InvertedIndex)
    (tf : InvertedIndex → ℕ → ℕ → ℕ → ℝ) (idf : InvertedIndex → ℕ → ℝ)
    (histogram : List ℝ) (i : ℕ) : ℝ :=
  ∑ t ∈ (queryIndex idx tf idf histogram).uniqueWords,
    ((((idx.docFrequencyList.getD t []).zip (idx.docWeightList.getD t [])).filter
      (fun q => decide (q.1.1 = i))).map
        (fun q => q.2 * queryWqt idx tf idf histogram t)).sum

/-- Model of `InvertedIndex::query(histogram, tf, idf, numResults, result)`
(lines 154-236): cap `numResults` at the document count, accumulate
dot-products, keep the top entries in a bounded min-heap, drain it and
reverse. -/
noncomputable def query (idx : InvertedIndex)
    (tf : InvertedIndex → ℕ → ℕ → ℕ → ℝ) (idf : InvertedIndex → ℕ → ℝ)
    (histogram : List ℝ) (numResults : ℕ) : List (ℝ × ℕ) :=
  ((((List.range idx.numDocuments).map
      (fun i => (queryAcc idx tf idf histogram i, i))).foldl
    (pqStep (min numResults idx.numDocuments)) []).take
      (min numResults idx.numDocuments)).reverse

/-! ## Theorems: hard quantization (C1, C9) -/

theorem hardScanAux_spec (sample : List ℚ) :
    ∀ (ws : List (List ℚ)) (i c : ℕ) (m : ℚ),
    ∃ r mm, hardScanAux sample i c (some m) ws = (r, some mm) ∧
      mm ≤ m ∧
      (∀ j, j < ws.length → mm ≤ l2norm_squared sample (ws.getD j [])) ∧
      ((r = c ∧ mm = m ∧
          ∀ j, j < ws.length → ¬ l2norm_squared sample (ws.getD j []) ≤ m) ∨
        (∃ j, j < ws.length ∧ r = i + j ∧
          mm = l2norm_squared sample (ws.getD j []) ∧
          ∀ k, j < k → k < ws.length →
            ¬ l2norm_squared sample (ws.getD k []) ≤ mm)) := by
  intro ws
  induction ws with
  | nil =>
    intro i c m
    exact ⟨c, m, rfl, le_refl m, by simp, Or.inl ⟨rfl, rfl, by simp⟩⟩
  | cons w t ih =>
    intro i c m
    by_cases hd : l2norm_squared sample w ≤ m
    · obtain ⟨r, mm, hrun, hle, hmin, hcase⟩ := ih (i + 1) i (l2norm_squared sample w)
      refine ⟨r, mm, ?_, le_trans hle hd, ?_, ?_⟩
      · simpa [hardScanAux, hd] using hrun
      · intro j hj
        match j with
        | 0 => simpa using hle
        | Nat.succ j' =>
          have := hmin j' (by simpa using Nat.lt_of_succ_lt_succ hj)
          simpa using this
      · rcases hcase with ⟨hr, hmmeq, hnone⟩ | ⟨j, hj, hr, hmmeq, hlast⟩
        · refine Or.inr ⟨0, by simp, by simpa using hr, by simpa using hmmeq, ?_⟩
          intro k hk0 hklen
          match k with
          | Nat.succ k' =>
            have := hnone k' (by simpa using Nat.lt_of_succ_lt_succ hklen)
            rw [hmmeq]
            simpa using this
        · refine Or.inr ⟨j + 1, by simpa using Nat.succ_lt_succ hj, by omega, by simpa using hmmeq, ?_⟩
          intro k hk0 hklen
          match k with
          | Nat.succ k' =>
            have := hlast k' (by omega) (by simpa using Nat.lt_of_succ_lt_succ hklen)
            simpa using this
    · obtain ⟨r, mm, hrun, hle, hmin, hcase⟩ := ih (i + 1) c m
      refine ⟨r, mm, ?_, hle, ?_, ?_⟩
      · simpa [hardScanAux, hd] using hrun
      · intro j hj
        match j with
        | 0 =>
          have : m < l2norm_squared sample w := lt_of_not_le hd
          simpa using le_trans hle (le_of_lt this)
        | Nat.succ j' =>
          have := hmin j' (by simpa using Nat.lt_of_succ_lt_succ hj)
          simpa using this
      · rcases hcase with ⟨hr, hmmeq, hnone⟩ | ⟨j, hj, hr, hmmeq, hlast⟩
        · refine Or.inl ⟨hr, hmmeq, ?_⟩
          intro j hj
          match j with
          | 0 => simpa using hd
          | Nat.succ j' =>
            have := hnone j' (by simpa using Nat.lt_of_succ_lt_succ hj)
            simpa using this
        · refine Or.inr ⟨j + 1, by simpa using Nat.succ_lt_succ hj, by omega, by simpa using hmmeq, ?_⟩
          intro k hk0 hklen
          match k with
          | Nat.succ k' =>
            have := hlast k' (by omega) (by simpa using Nat.lt_of_succ_lt_succ hklen)
            simpa using this

theorem hardScan_last_min (sample : List ℚ) (voc : List (List ℚ)) (hvoc : voc ≠ []) :
    (hardScan sample voc).1 < voc.length ∧
    (∀ j, j < voc.length →
      centroidDist sample voc (hardScan sample voc).1 ≤ centroidDist sample voc j) ∧
    (∀ j, j < voc.length →
      centroidDist sample voc j = centroidDist sample voc (hardScan sample voc).1 →
      j ≤ (hardScan sample voc).1) := by
  match voc, hvoc with
  | w :: t, _ =>
    obtain ⟨r, mm, hrun, hle, hmin, hcase⟩ :=
      hardScanAux_spec sample t 1 0 (l2norm_squared sample w)
    have hscan : hardScan sample (w :: t) = (r, some mm) := by
      simpa [hardScan, hardScanAux] using hrun
    rcases hcase with ⟨hr, hmmeq, hnone⟩ | ⟨j, hj, hr, hmmeq, hlast⟩
    · refine ⟨by simp [hscan, hr], ?_, ?_⟩
      · intro k hk
        match k with
        | 0 => simp [hscan, hr]
        | Nat.succ k' =>
          have := hmin k' (by simpa using Nat.lt_of_succ_lt_succ hk)
          simp only [hscan, hr]
          calc centroidDist sample (w :: t) 0 = l2norm_squared sample w := by
                simp [centroidDist]
            _ = mm := hmmeq.symm
            _ ≤ l2norm_squared sample (t.getD k' []) := this
            _ = centroidDist sample (w :: t) (Nat.succ k') := by simp [centroidDist]
      · intro k hk heq
        match k with
        | 0 => simp [hscan, hr]
        | Nat.succ k' =>
          exfalso
          have hnk := hnone k' (by simpa using Nat.lt_of_succ_lt_succ hk)
          apply hnk
          have : centroidDist sample (w :: t) (Nat.succ k') = l2norm_squared sample (t.getD k' []) := by
            simp [centroidDist]
          rw [← this, heq]
          simp only [hscan, hr]
          have h0 : centroidDist sample (w :: t) 0 = l2norm_squared sample w := by
            simp [centroidDist]
          rw [h0]
    · refine ⟨?_, ?_, ?_⟩
      · simp only [hscan, hr, List.length_cons]
        omega
      · intro k hk
        have hrmm : centroidDist sample (w :: t) (hardScan sample (w :: t)).1 = mm := by
          simp only [hscan, hr, hmmeq]
          have : 1 + j = Nat.succ j := by omega
          simp [this, centroidDist]
        rw [hrmm]
        match k with
        | 0 =>
          have : centroidDist sample (w :: t) 0 = l2norm_squared sample w := by
            simp [centroidDist]
          rw [this]; exact hle
        | Nat.succ k' =>
          have := hmin k' (by simpa using Nat.lt_of_succ_lt_succ hk)
          have heq : centroidDist sample (w :: t) (Nat.succ k') = l2norm_squared sample (t.getD k' []) := by
            simp [centroidDist]
          rw [heq]; exact this
      · intro k hk heq
        have hr1 : (hardScan sample (w :: t)).1 = 1 + j := by simp [hscan, hr]
        rw [hr1]
        match k with
        | 0 => omega
        | Nat.succ k' =>
          by_contra hgt
          have hk'j : j < k' := by omega
          have hnk := hlast k' hk'j (by simpa using Nat.lt_of_succ_lt_succ hk)
          apply hnk
          have h1 : centroidDist sample (w :: t) (Nat.succ k') = l2norm_squared sample (t.getD k' []) := by
            simp [centroidDist]
          have h2 : centroidDist sample (w :: t) (hardScan sample (w :: t)).1 = mm := by
            rw [hr1]
            have hsj : 1 + j = Nat.succ j := by omega
            rw [hsj]
            have : centroidDist sample (w :: t) (Nat.succ j) = l2norm_squared sample (t.getD j []) := by
              simp [centroidDist]
            rw [this]
            exact hmmeq.symm
          rw [← h1, heq, h2]

/-- C1 (amended): for a non-empty vocabulary and a freshly value-initialised
output vector, `quantize_hard` returns the one-hot indicator of the index
`c` with minimal squared-Euclidean distance, where ties are broken toward
the HIGHEST centroid index (the scan updates on `distance <= minDistance`,
so the last index attaining the minimum wins). -/
theorem quantize_hard_one_hot (sample : List ℚ) (voc : List (List ℚ)) (hvoc : voc ≠ []) :
    ∃ c, c < voc.length ∧
      quantize_hard sample voc [] = oneHot voc.length c ∧
      (∀ j, j < voc.length → centroidDist sample voc c ≤ centroidDist sample voc j) ∧
      (∀ j, j < voc.length →
        centroidDist sample voc j = centroidDist sample voc c → j ≤ c) := by
  obtain ⟨hlt, hmin, hlast⟩ := hardScan_last_min sample voc hvoc
  refine ⟨(hardScan sample voc).1, hlt, ?_, hmin, hlast⟩
  simp [quantize_hard, vecResize, oneHot]

/-- C1 witness. -/
theorem quantize_hard_one_hot_witness :
    ([[(0 : ℚ)]] ≠ []) ∧
    (∃ c, c < ([[(0 : ℚ)]] : List (List ℚ)).length ∧
      quantize_hard [0] [[0]] [] = oneHot ([[(0 : ℚ)]] : List (List ℚ)).length c ∧
      (∀ j, j < ([[(0 : ℚ)]] : List (List ℚ)).length →
        centroidDist [0] [[0]] c ≤ centroidDist [0] [[0]] j) ∧
      (∀ j, j < ([[(0 : ℚ)]] : List (List ℚ)).length →
        centroidDist [0] [[0]] j = centroidDist [0] [[0]] c → j ≤ c)) :=
  ⟨by decide, quantize_hard_one_hot [0] [[0]] (by decide)⟩

/-- C1 counterexample: with two identical centroids the claim (lowest-index
tie-break) predicts the one-hot at index 0, but the code returns the one-hot
at index 1. -/
theorem quantize_hard_not_lowest_tie :
    quantize_hard [(0 : ℚ)] [[0], [0]] [] ≠ oneHot 2 (argminLow [0] [[0], [0]]) := by
  have h1 : quantize_hard [(0 : ℚ)] [[0], [0]] [] = [0, 1] := by
    simp [quantize_hard, hardScan, hardScanAux, l2norm_squared, vecResize]
  have h2 : argminLow [(0 : ℚ)] [[0], [0]] = 0 := by
    have hP : ∀ j, j < ([[(0 : ℚ)], [0]] : List (List ℚ)).length →
        centroidDist [(0 : ℚ)] [[0], [0]] 0 ≤ centroidDist [(0 : ℚ)] [[0], [0]] j := by
      intro j hj
      simp only [List.length_cons, List.length_nil] at hj
      interval_cases j <;> simp [centroidDist, l2norm_squared]
    have hr : List.range ([[(0 : ℚ)], [0]] : List (List ℚ)).length = [0, 1] := by decide
    rw [argminLow, hr, List.find?, decide_eq_true hP]
    rfl
  rw [h1, h2]
  have h3 : oneHot 2 0 = [1, 0] := by simp [oneHot]
  rw [h3]
  simp

/-- C9: `quantize_hard` writes only the winning slot of the resized output
vector; every other slot keeps exactly the value it held after the resize,
and a slot surviving the resize keeps the caller-supplied value.
Consequently the one-hot postcondition fails for pre-filled output vectors:
for the right-sized vector `[5, 5]` the result has two non-zero entries. -/
theorem quantize_hard_frame :
    (∀ (prev sample : List ℚ) (voc : List (List ℚ)) (j : ℕ),
      j < voc.length → j ≠ (hardScan sample voc).1 →
      (quantize_hard sample voc prev).getD j 0 = (vecResize prev voc.length).getD j 0 ∧
      (j < prev.length → (vecResize prev voc.length).getD j 0 = prev.getD j 0)) ∧
    (quantize_hard [0] [[0], [1]] [5, 5]).countP (fun v => decide (v ≠ 0)) = 2 := by
  constructor
  · intro prev sample voc j hj hne
    have hlenres : (vecResize prev voc.length).length = voc.length := by
      simp only [vecResize, List.length_append, List.length_take, List.length_replicate]
      omega
    have hjres : j < (vecResize prev voc.length).length := by rw [hlenres]; exact hj
    constructor
    · have hjset : j < ((vecResize prev voc.length).set (hardScan sample voc).1 1).length := by
        simpa using hjres
      rw [quantize_hard, List.getD_eq_getElem _ _ hjset, List.getD_eq_getElem _ _ hjres]
      exact List.getElem_set_ne (by omega) _
    · intro hjprev
      have hjtake : j < (prev.take voc.length).length := by
        simp only [List.length_take]
        omega
      rw [List.getD_eq_getElem _ _ hjres, List.getD_eq_getElem _ _ hjprev]
      simp only [vecResize]
      rw [List.getElem_append_left hjtake]
      exact List.getElem_take _
  · have h1 : quantize_hard [(0 : ℚ)] [[0], [1]] [5, 5] = [1, 5] := by
      norm_num [quantize_hard, hardScan, hardScanAux, l2norm_squared, vecResize]
    rw [h1]
    simp [List.countP, List.countP.go]

/-- C9 witness: instantiate the frame part at `prev = [5,5]`, `j = 1`. -/
theorem quantize_hard_frame_witness :
    ((1 : ℕ) < ([[(0 : ℚ)], [1]] : List (List ℚ)).length) ∧
    (1 ≠ (hardScan [(0 : ℚ)] [[0], [1]]).1) ∧
    ((quantize_hard [(0 : ℚ)] [[0], [1]] [5, 5]).getD 1 0 =
        (vecResize [5, 5] ([[(0 : ℚ)], [1]] : List (List ℚ)).length).getD 1 0 ∧
      (1 < ([5, (5 : ℚ)] : List ℚ).length →
        (vecResize [5, 5] ([[(0 : ℚ)], [1]] : List (List ℚ)).length).getD 1 0 =
          ([5, (5 : ℚ)] : List ℚ).getD 1 0)) := by
  have hne : (1 : ℕ) ≠ (hardScan [(0 : ℚ)] [[0], [1]]).1 := by
    norm_num [hardScan, hardScanAux, l2norm_squared]
  exact ⟨by decide, hne, quantize_hard_frame.1 [5, 5] [0] [[0], [1]] 1 (by decide) hne⟩

/-! ## Theorems: spatial pyramid (C5) -/

theorem ratTrunc_eq_floor (q : ℚ) (hq : 0 ≤ q) : ratTrunc q = ⌊q⌋ := by
  rw [ratTrunc, Int.tdiv_eq_ediv (Rat.num_nonneg.2 hq) (Int.ofNat_nonneg q.den)]
  rw [← Rat.floor_intCast_div_natCast q.num q.den]
  rw [Rat.num_div_den]

theorem length_addFeature (hist : List ℚ) (off K : ℕ) (q : List ℚ) :
    (addFeature hist off K q).length = hist.length := by
  simp [addFeature, List.enum_length]

theorem getD_addFeature (hist : List ℚ) (off K : ℕ) (q : List ℚ) (j : ℕ)
    (hj : j < hist.length) :
    (addFeature hist off K q).getD j 0 =
      hist.getD j 0 + (if off ≤ j ∧ j < off + K then q.getD (j - off) 0 else 0) := by
  have hj1 : j < (addFeature hist off K q).length := by
    rw [length_addFeature]; exact hj
  have hj2 : j < hist.enum.length := by rw [List.enum_length]; exact hj
  rw [List.getD_eq_getElem _ _ hj1, List.getD_eq_getElem _ _ hj]
  simp only [addFeature, List.getElem_map, List.getElem_enum]
  by_cases h : off ≤ j ∧ j < off + K <;> simp [h]

theorem length_histLoop (K res : ℕ) :
    ∀ (qs ps : List (List ℚ)) (hist : List ℚ),
      (histLoop K res qs ps hist).length = hist.length := by
  intro qs
  induction qs with
  | nil => intro ps hist; rfl
  | cons q qs ih =>
    intro ps hist
    rw [histLoop, ih, length_addFeature]

theorem cellIndex_bounds (res : ℕ) (hres : 1 ≤ res) (p : List ℚ)
    (hp : 0 ≤ p.getD 0 0 ∧ p.getD 0 0 ≤ 1 ∧ 0 ≤ p.getD 1 0 ∧ p.getD 1 0 ≤ 1) :
    0 ≤ cellIndex res p ∧ cellIndex res p < ((res * res : ℕ) : ℤ) := by
  obtain ⟨h0x, h1x, h0y, h1y⟩ := hp
  have coord : ∀ v : ℚ, 0 ≤ v → v ≤ 1 →
      0 ≤ ratTrunc (v * res) ∧ ratTrunc (v * res) ≤ (res : ℤ) := by
    intro v hv0 hv1
    have hvr0 : 0 ≤ v * (res : ℚ) := by positivity
    rw [ratTrunc_eq_floor _ hvr0]
    constructor
    · exact Int.floor_nonneg.2 hvr0
    · have : v * (res : ℚ) ≤ (res : ℚ) := by
        nlinarith [Nat.cast_nonneg (α := ℚ) res]
      calc ⌊v * (res : ℚ)⌋ ≤ ⌊(res : ℚ)⌋ := Int.floor_le_floor this
        _ = (res : ℤ) := by norm_num
  have adj : ∀ v : ℚ, 0 ≤ v → v ≤ 1 →
      0 ≤ (if ratTrunc (v * res) = (res : ℤ) then ratTrunc (v * res) - 1
            else ratTrunc (v * res)) ∧
      (if ratTrunc (v * res) = (res : ℤ) then ratTrunc (v * res) - 1
            else ratTrunc (v * res)) ≤ (res : ℤ) - 1 := by
    intro v hv0 hv1
    obtain ⟨ha, hb⟩ := coord v hv0 hv1
    by_cases h : ratTrunc (v * res) = (res : ℤ) <;> simp [h] <;> omega
  obtain ⟨hx0, hx1⟩ := adj _ h0x h1x
  obtain ⟨hy0, hy1⟩ := adj _ h0y h1y
  rw [cellIndex]
  constructor
  · positivity
  · push_cast
    nlinarith [hx0, hx1, hy0, hy1, Int.ofNat_nonneg res]

theorem cellOffset_form (K res : ℕ) (hres : 1 ≤ res) (p : List ℚ)
    (hp : 0 ≤ p.getD 0 0 ∧ p.getD 0 0 ≤ 1 ∧ 0 ≤ p.getD 1 0 ∧ p.getD 1 0 ≤ 1) :
    ∃ idx, idx < res * res ∧ cellOffset K res p = K * idx := by
  obtain ⟨h0, h1⟩ := cellIndex_bounds res hres p hp
  exact ⟨(cellIndex res p).toNat, by omega, rfl⟩

theorem slot_lt {m K c res : ℕ} (hm : m < res * res) (hc : c < K) :
    m * K + c < res * res * K := by
  have h1 : (m + 1) * K = m * K + K := by ring
  have h2 : (m + 1) * K ≤ res * res * K := Nat.mul_le_mul_right K (by omega)
  omega

theorem cellsSum_addFeature (hist : List ℚ) (K res c idx : ℕ) (q : List ℚ)
    (hhist : hist.length = res * res * K) (hc : c < K) (hidx : idx < res * res) :
    cellsSum (addFeature hist (K * idx) K q) K res c =
      cellsSum hist K res c + q.getD c 0 := by
  have hpt : ∀ m ∈ Finset.range (res * res),
      (addFeature hist (K * idx) K q).getD (m * K + c) 0 =
        hist.getD (m * K + c) 0 + (if m = idx then q.getD c 0 else 0) := by
    intro m hm
    have hmlt : m < res * res := Finset.mem_range.1 hm
    have hin : m * K + c < hist.length := by
      rw [hhist]; exact slot_lt hmlt hc
    rw [getD_addFeature hist (K * idx) K q _ hin]
    congr 1
    by_cases hmi : m = idx
    · subst hmi
      have hcomm : K * m = m * K := Nat.mul_comm K m
      have hcond : K * m ≤ m * K + c ∧ m * K + c < K * m + K := by omega
      rw [if_pos hcond, if_pos rfl]
      congr 1
      omega
    · have hcond : ¬ (K * idx ≤ m * K + c ∧ m * K + c < K * idx + K) := by
        rintro ⟨hle, hlt⟩
        rcases Nat.lt_or_ge m idx with hmlt2 | hmge
        · have h1 : (m + 1) * K = m * K + K := by ring
          have h2 : (m + 1) * K ≤ idx * K := Nat.mul_le_mul_right K (by omega)
          have h3 : idx * K = K * idx := Nat.mul_comm idx K
          omega
        · have hmgt : idx < m := lt_of_le_of_ne hmge (fun h => hmi h.symm)
          have h1 : (idx + 1) * K = K * idx + K := by ring
          have h2 : (idx + 1) * K ≤ m * K := Nat.mul_le_mul_right K (by omega)
          omega
      rw [if_neg hcond, if_neg hmi]
  rw [cellsSum, cellsSum, Finset.sum_congr rfl hpt, Finset.sum_add_distrib]
  congr 1
  rw [Finset.sum_ite_eq' (Finset.range (res * res)) idx (fun _ => q.getD c 0)]
  rw [if_pos (Finset.mem_range.2 hidx)]

theorem getD_replicate_zero (n j : ℕ) : (List.replicate n (0 : ℚ)).getD j 0 = 0 := by
  by_cases h : j < n
  · rw [List.getD_eq_getElem _ _ (by simpa using h)]
    simp
  · rw [List.getD_eq_default]
    simpa using Nat.le_of_not_lt h

theorem histLoop_cells (K res : ℕ) (hres : 1 ≤ res) :
    ∀ (qs ps : List (List ℚ)) (histR histF : List ℚ),
      histR.length = res * res * K → histF.length = K →
      (∀ q ∈ qs, q.length = K) → ps.length = qs.length →
      (∀ p ∈ ps, 0 ≤ p.getD 0 0 ∧ p.getD 0 0 ≤ 1 ∧ 0 ≤ p.getD 1 0 ∧ p.getD 1 0 ≤ 1) →
      ∀ c, c < K →
        cellsSum (histLoop K res qs ps histR) K res c + histF.getD c 0 =
          (histLoop K 1 qs ps histF).getD c 0 + cellsSum histR K res c := by
  intro qs
  induction qs with
  | nil =>
    intro ps histR histF _ _ _ _ _ c _
    rw [histLoop, histLoop, add_comm]
  | cons q qs ih =>
    intro ps histR histF hR hF hlen hpl hpb c hc
    match ps, hpl with
    | p :: ps', hpl =>
      have hoffR : ∃ idx, idx < res * res ∧
          (if 1 < res then cellOffset K res ((p :: ps').headD []) else 0) = K * idx := by
        by_cases h : 1 < res
        · rw [if_pos h]
          simpa using cellOffset_form K res hres p (hpb p (by simp))
        · rw [if_neg h]
          exact ⟨0, by positivity, by ring⟩
      obtain ⟨idx, hidx, hoff⟩ := hoffR
      have hoffF : (if 1 < 1 then cellOffset K 1 ((p :: ps').headD []) else 0) = 0 := by
        norm_num
      rw [histLoop, histLoop, hoff, hoffF]
      simp only [List.tail_cons]
      have hq : q.length = K := hlen q (by simp)
      have step := ih ps' (addFeature histR (K * idx) K q) (addFeature histF 0 K q)
        (by rw [length_addFeature]; exact hR)
        (by rw [length_addFeature]; exact hF)
        (fun q2 hq2 => hlen q2 (by simp [hq2]))
        (by simpa using hpl)
        (fun p2 hp2 => hpb p2 (by simp [hp2]))
        c hc
      have e1 : cellsSum (addFeature histR (K * idx) K q) K res c =
          cellsSum histR K res c + q.getD c 0 :=
        cellsSum_addFeature histR K res c idx q hR hc hidx
      have e2 : (addFeature histF 0 K q).getD c 0 = histF.getD c 0 + q.getD c 0 := by
        rw [getD_addFeature histF 0 K q c (by rw [hF]; exact hc)]
        rw [if_pos ⟨Nat.zero_le c, by omega⟩]
        simp
      linarith [step, e1, e2]

theorem cellsSum_map_div (hist : List ℚ) (K res c : ℕ) (n : ℚ)
    (hlen : hist.length = res * res * K) (hc : c < K) :
    cellsSum (hist.map (fun v => v / n)) K res c = cellsSum hist K res c / n := by
  rw [cellsSum, cellsSum, Finset.sum_div]
  apply Finset.sum_congr rfl
  intro m hm
  have hin : m * K + c < hist.length := by
    rw [hlen]; exact slot_lt (Finset.mem_range.1 hm) hc
  have hin2 : m * K + c < (hist.map (fun v => v / n)).length := by
    rw [List.length_map]; exact hin
  rw [List.getD_eq_getElem _ _ hin2, List.getD_eq_getElem _ _ hin, List.getElem_map]

/-- C5: for every resolution `R ≥ 1`, list of quantized feature vectors of
common length `K` and positions in `[0,1]²` of the same length, summing the
`R²` per-cell slices of length `K` of the spatial-pyramid histogram yields
component-for-component the flat (`R = 1`) histogram built with the same
`normalize` flag. -/
theorem build_histvw_pyramid_sum (qf positions : List (List ℚ)) (K res : ℕ)
    (normalize : Bool) (hres : 1 ≤ res) (hlen : ∀ q ∈ qf, q.length = K)
    (hpos : positions.length = qf.length)
    (hpb : ∀ p ∈ positions, 0 ≤ p.getD 0 0 ∧ p.getD 0 0 ≤ 1 ∧
      0 ≤ p.getD 1 0 ∧ p.getD 1 0 ≤ 1)
    (c : ℕ) (hc : c < K) :
    cellsSum (build_histvw qf K normalize positions res) K res c =
      (build_histvw qf K normalize positions 1).getD c 0 := by
  have hbase := histLoop_cells K res hres qf positions
    (List.replicate (res * res * K) 0) (List.replicate (1 * 1 * K) 0)
    (by simp) (by simp) hlen hpos hpb c hc
  have h0R : cellsSum (List.replicate (res * res * K) (0 : ℚ)) K res c = 0 := by
    rw [cellsSum]
    exact Finset.sum_eq_zero (fun m _ => getD_replicate_zero _ _)
  have h0F : (List.replicate (1 * 1 * K) (0 : ℚ)).getD c 0 = 0 := getD_replicate_zero _ _
  have core : cellsSum (histLoop K res qf positions
        (List.replicate (res * res * K) 0)) K res c =
      (histLoop K 1 qf positions (List.replicate (1 * 1 * K) 0)).getD c 0 := by
    linarith [hbase, h0R, h0F]
  have hlenR : (histLoop K res qf positions
      (List.replicate (res * res * K) (0 : ℚ))).length = res * res * K := by
    rw [length_histLoop]; simp
  have hlenF : (histLoop K 1 qf positions
      (List.replicate (1 * 1 * K) (0 : ℚ))).length = K := by
    rw [length_histLoop]; simp
  rw [build_histvw, build_histvw]
  by_cases hn : (normalize = true) ∧ 0 < qf.length
  · rw [if_pos hn, if_pos hn]
    rw [cellsSum_map_div _ K res c _ hlenR hc]
    have hcF : c < (histLoop K 1 qf positions
        (List.replicate (1 * 1 * K) (0 : ℚ))).length := by rw [hlenF]; exact hc
    have hcF2 : c < ((histLoop K 1 qf positions
        (List.replicate (1 * 1 * K) (0 : ℚ))).map
          (fun v => v / (qf.length : ℚ))).length := by
      rw [List.length_map]; exact hcF
    rw [List.getD_eq_getElem _ _ hcF2, List.getElem_map, ← List.getD_eq_getElem _ _ hcF]
    rw [core]
  · rw [if_neg hn, if_neg hn]
    exact core

/-- C5 witness: a single one-dimensional feature at position `(0,0)`,
`K = 1`, `R = 2`. -/
theorem build_histvw_pyramid_sum_witness :
    (1 ≤ 2) ∧
    (∀ q ∈ ([[(1 : ℚ)]] : List (List ℚ)), q.length = 1) ∧
    (([[(0 : ℚ), 0]] : List (List ℚ)).length = ([[(1 : ℚ)]] : List (List ℚ)).length) ∧
    (∀ p ∈ ([[(0 : ℚ), 0]] : List (List ℚ)), 0 ≤ p.getD 0 0 ∧ p.getD 0 0 ≤ 1 ∧
      0 ≤ p.getD 1 0 ∧ p.getD 1 0 ≤ 1) ∧
    ((0 : ℕ) < 1) ∧
    cellsSum (build_histvw [[(1 : ℚ)]] 1 false [[0, 0]] 2) 1 2 0 =
      (build_histvw [[(1 : ℚ)]] 1 false [[0, 0]] 1).getD 0 0 := by
  refine ⟨by norm_num, by simp, by simp, by norm_num, by norm_num, ?_⟩
  exact build_histvw_pyramid_sum [[1]] [[0, 0]] 1 2 false (by norm_num) (by simp)
    (by simp) (by norm_num) 0 (by norm_num)

/-! ## Theorems: file-list sampling (C7) -/

theorem map_getD_sublist (idxs : List ℕ) (l : List String)
    (hp : List.Pairwise (· < ·) idxs) (hb : ∀ i ∈ idxs, i < l.length) :
    List.Sublist (idxs.map (fun i => l.getD i default)) l := by
  induction l generalizing idxs with
  | nil =>
    match idxs with
    | [] => simp
    | a :: t => exact absurd (hb a (by simp)) (by simp)
  | cons x xs ih =>
    match idxs with
    | [] => simp
    | j :: t =>
      have hshift : ∀ (u : List ℕ), (∀ i ∈ u, 0 < i) →
          u.map (fun i => (x :: xs).getD i default) =
            (u.map (fun i => i - 1)).map (fun i => xs.getD i default) := by
        intro u hu
        rw [List.map_map]
        apply List.map_congr_left
        intro i hi
        have hi0 := hu i hi
        obtain ⟨i', rfl⟩ : ∃ i', i = i' + 1 := ⟨i - 1, by omega⟩
        simp
      have hposT : ∀ i ∈ t, j < i := fun i hi => List.rel_of_pairwise_cons hp hi
      by_cases hj : j = 0
      · subst hj
        have hpos : ∀ i ∈ t, 0 < i := hposT
        simp only [List.map_cons]
        have h0 : (x :: xs).getD 0 default = x := rfl
        rw [h0, hshift t hpos]
        apply List.Sublist.cons₂
        apply ih
        · rw [List.pairwise_map]
          apply List.Pairwise.imp_of_mem ?_ hp.of_cons
          intro a b ha hb2 hab
          have := hpos a ha
          omega
        · intro i hi
          rcases List.mem_map.1 hi with ⟨i0, hi0, rfl⟩
          have h1 := hb i0 (by simp [hi0])
          have h2 := hpos i0 hi0
          simp only [List.length_cons] at h1
          omega
      · have hpos : ∀ i ∈ j :: t, 0 < i := by
          intro i hi
          rcases List.mem_cons.1 hi with rfl | hit
          · omega
          · have := hposT i hit
            omega
        rw [hshift (j :: t) hpos]
        apply List.Sublist.cons
        apply ih
        · rw [List.pairwise_map]
          apply List.Pairwise.imp_of_mem ?_ hp
          intro a b ha hb2 hab
          have := hpos a ha
          omega
        · intro i hi
          rcases List.mem_map.1 hi with ⟨i0, hi0, rfl⟩
          have h1 := hb i0 hi0
          have h2 := hpos i0 hi0
          simp only [List.length_cons] at h1
          omega

/-- C7: after `random_sample(k, seed)` on a list `L` (the seed-driven
shuffle modelled by an arbitrary permutation of the index range), the
result has length `min(k, |L|)`, every element is an element of `L`, and
the surviving elements appear in the same relative order as in `L`
(the result is a sublist of `L`, i.e. ascending by original index). -/
theorem random_sample_spec (files : List String) (k : ℕ) (shuffled : List ℕ)
    (hperm : shuffled.Perm (List.range files.length)) :
    (random_sample files k shuffled).length = min k files.length ∧
    (∀ x ∈ random_sample files k shuffled, x ∈ files) ∧
    List.Sublist (random_sample files k shuffled) files := by
  by_cases hk : files.length ≤ k
  · rw [random_sample, if_pos hk]
    exact ⟨(Nat.min_eq_right hk).symm, fun x hx => hx, List.Sublist.refl files⟩
  · rw [random_sample, if_neg hk]
    have hlt : k < files.length := Nat.lt_of_not_le hk
    have hnd : shuffled.Nodup := hperm.nodup_iff.2 (List.nodup_range _)
    have hlenS : shuffled.length = files.length := by
      rw [hperm.length_eq, List.length_range]
    have htake_nd : (shuffled.take k).Nodup := (List.take_sublist k shuffled).nodup hnd
    have hsort : List.Sorted (· ≤ ·) (List.insertionSort (· ≤ ·) (shuffled.take k)) :=
      List.sorted_insertionSort _ _
    have hsperm : (List.insertionSort (· ≤ ·) (shuffled.take k)).Perm (shuffled.take k) :=
      List.perm_insertionSort _ _
    have hsnd : (List.insertionSort (· ≤ ·) (shuffled.take k)).Nodup :=
      hsperm.nodup_iff.2 htake_nd
    have hstrict : List.Pairwise (· < ·) (List.insertionSort (· ≤ ·) (shuffled.take k)) :=
      hsort.lt_of_le hsnd
    have hbound : ∀ i ∈ List.insertionSort (· ≤ ·) (shuffled.take k), i < files.length := by
      intro i hi
      have h1 : i ∈ shuffled.take k := hsperm.mem_iff.1 hi
      have h2 : i ∈ shuffled := (List.take_sublist k shuffled).subset h1
      have h3 : i ∈ List.range files.length := hperm.subset h2
      exact List.mem_range.1 h3
    have hlens : (List.insertionSort (· ≤ ·) (shuffled.take k)).length = k := by
      rw [hsperm.length_eq, List.length_take, hlenS]
      omega
    have hsub := map_getD_sublist _ files hstrict hbound
    refine ⟨?_, fun x hx => hsub.subset hx, hsub⟩
    rw [List.length_map, hlens]
    omega

/-! ## Theorems: ordered output buffer (C6) -/

theorem mem_opbInsert {α : Type} (x z : ℕ × α) :
    ∀ (l : List (ℕ × α)), z ∈ opbInsert x l ↔ z = x ∨ z ∈ l := by
  intro l
  induction l with
  | nil => simp [opbInsert]
  | cons y ys ih =>
    rw [opbInsert]
    by_cases h : x.1 ≤ y.1
    · rw [if_pos h]
      simp [or_comm, or_assoc, or_left_comm]
    · rw [if_neg h]
      simp [ih, or_comm, or_assoc, or_left_comm]

theorem opbInsert_perm {α : Type} (x : ℕ × α) :
    ∀ (l : List (ℕ × α)), (opbInsert x l).Perm (x :: l) := by
  intro l
  induction l with
  | nil => simp [opbInsert]
  | cons y ys ih =>
    rw [opbInsert]
    by_cases h : x.1 ≤ y.1
    · rw [if_pos h]
    · rw [if_neg h]
      exact (ih.cons y).trans (List.Perm.swap x y ys)

theorem opbInsert_pairwise {α : Type} (x : ℕ × α) :
    ∀ (l : List (ℕ × α)),
      List.Pairwise (fun a b : ℕ × α => a.1 < b.1) l →
      (∀ y ∈ l, x.1 ≠ y.1) →
      List.Pairwise (fun a b : ℕ × α => a.1 < b.1) (opbInsert x l) := by
  intro l
  induction l with
  | nil => intro _ _; simp [opbInsert]
  | cons y ys ih =>
    intro hp hne
    rw [opbInsert]
    by_cases h : x.1 ≤ y.1
    · rw [if_pos h]
      have hxy : x.1 < y.1 := lt_of_le_of_ne h (hne y (by simp))
      refine List.Pairwise.cons ?_ hp
      intro z hz
      rcases List.mem_cons.1 hz with rfl | hzys
      · exact hxy
      · exact lt_trans hxy (List.rel_of_pairwise_cons hp hzys)
    · rw [if_neg h]
      have hyx : y.1 < x.1 := by omega
      refine List.Pairwise.cons ?_ (ih hp.of_cons (fun z hz => hne z (by simp [hz])))
      intro z hz
      rcases (mem_opbInsert x z ys).1 hz with rfl | hzys
      · exact hyx
      · exact List.rel_of_pairwise_cons hp hzys

theorem firstGap_spec_aux (s : List ℕ) : ∃ k, k ∉ s :=
  ⟨s.sum + 1, fun h => by
    have := List.single_le_sum (fun (x : ℕ) _ => Nat.zero_le x) _ h
    omega⟩

theorem firstGap_eq_find (s : List ℕ) : firstGap s = Nat.find (firstGap_spec_aux s) := rfl

theorem firstGap_not_mem (s : List ℕ) : firstGap s ∉ s := by
  rw [firstGap_eq_find]
  exact Nat.find_spec (firstGap_spec_aux s)

theorem mem_of_lt_firstGap {s : List ℕ} {j : ℕ} (h : j < firstGap s) : j ∈ s := by
  rw [firstGap_eq_find] at h
  have := Nat.find_min (firstGap_spec_aux s) h
  simpa using this

theorem firstGap_le_of_not_mem {s : List ℕ} {k : ℕ} (h : k ∉ s) : firstGap s ≤ k := by
  rw [firstGap_eq_find]
  exact Nat.find_min' _ h

theorem find?_eq_of_fst_nodup {α : Type} :
    ∀ (l : List (ℕ × α)), (l.map Prod.fst).Nodup → ∀ (j : ℕ) (v : α),
      (j, v) ∈ l → l.find? (fun q => q.1 == j) = some (j, v) := by
  intro l
  induction l with
  | nil => intro _ j v h; simp at h
  | cons a as ih =>
    intro hnd j v hmem
    rw [List.map_cons, List.nodup_cons] at hnd
    rcases List.mem_cons.1 hmem with rfl | htail
    · rw [List.find?]
      simp
    · have hja : a.1 ≠ j := by
        intro hcontra
        apply hnd.1
        rw [hcontra]
        exact List.mem_map.2 ⟨(j, v), htail, rfl⟩
      rw [List.find?]
      have : (a.1 == j) = false := by simpa using hja
      rw [this]
      exact ih hnd.2 j v htail

theorem opbDrain_spec {α : Type} :
    ∀ (s : List (ℕ × α)) (n m : ℕ),
      List.Pairwise (fun a b : ℕ × α => a.1 < b.1) s →
      (∀ y ∈ s, n ≤ y.1) →
      n ≤ m →
      (∀ j, n ≤ j → j < m → j ∈ s.map Prod.fst) →
      m ∉ s.map Prod.fst →
      opbDrain s n =
        ((s.filter (fun y => decide (y.1 < m))).map Prod.snd,
          s.filter (fun y => decide (m ≤ y.1)), m) := by
  intro s
  induction s with
  | nil =>
    intro n m _ _ hnm hall hm
    have hmn : m = n := by
      by_contra hne
      have : n < m := by omega
      have := hall n (le_refl n) this
      simp at this
    subst hmn
    simp [opbDrain]
  | cons y rest ih =>
    intro n m hp hge hnm hall hm
    obtain ⟨i, v⟩ := y
    have hrestge : ∀ z ∈ rest, i < z.1 := fun z hz => List.rel_of_pairwise_cons hp hz
    by_cases hin : i = n
    · subst hin
      have hiltm : i < m := by
        rcases Nat.lt_or_ge i m with h | h
        · exact h
        · exfalso
          rcases Nat.eq_or_lt_of_le h with h2 | h2
          · exact hm (by simp [← h2])
          · have := hall m (by omega) (by omega)
            simp only [List.map_cons, List.mem_cons] at this
            rcases this with h3 | h3
            · omega
            · rcases List.mem_map.1 h3 with ⟨z, hz, rfl⟩
              have := hrestge z hz
              omega
      have hrec := ih (i + 1) m hp.of_cons
        (fun z hz => hrestge z hz)
        (by omega)
        (fun j hj1 hj2 => by
          have := hall j (by omega) hj2
          simp only [List.map_cons, List.mem_cons] at this
          rcases this with h3 | h3
          · omega
          · exact h3)
        (fun hcontra => hm (by simp [hcontra]))
      rw [opbDrain, if_pos rfl, hrec]
      have hkeep : (decide (i < m)) = true := by simpa using hiltm
      have hdrop : (decide (m ≤ i)) = false := by simpa using hiltm
      simp [List.filter_cons, hkeep, hdrop]
    · have hmn : m = n := by
        by_contra hne
        have hnm2 : n < m := by omega
        have := hall n (le_refl n) hnm2
        simp only [List.map_cons, List.mem_cons] at this
        rcases this with h3 | h3
        · have := hge (i, v) (by simp)
          simp at this h3
          omega
        · rcases List.mem_map.1 h3 with ⟨z, hz, hz2⟩
          have h4 := hrestge z hz
          have h5 := hge (i, v) (by simp)
          simp at h5
          omega
      subst hmn
      rw [opbDrain, if_neg hin]
      have hgei : m ≤ i := by
        have := hge (i, v) (by simp)
        simpa using this
      have hdrop : (decide (i < m)) = false := by simpa using hgei
      have hkeep : (decide (m ≤ i)) = true := by simpa using hgei
      have hrestfilter1 : rest.filter (fun y => decide (y.1 < m)) = [] := by
        rw [List.filter_eq_nil_iff]
        intro z hz
        have h1 := hrestge z hz
        simp
        omega
      have hrestfilter2 : rest.filter (fun y => decide (m ≤ y.1)) = rest := by
        rw [List.filter_eq_self]
        intro z hz
        have h1 := hrestge z hz
        simp
        omega
      simp [List.filter_cons, hdrop, hkeep, hrestfilter1, hrestfilter2]

theorem eq_of_pairwise_lt_mem_iff :
    ∀ (a b : List ℕ), List.Pairwise (· < ·) a → List.Pairwise (· < ·) b →
      (∀ x, x ∈ a ↔ x ∈ b) → a = b := by
  intro a
  induction a with
  | nil =>
    intro b _ _ hiff
    cases b with
    | nil => rfl
    | cons y ys =>
      have := (hiff y).2 (by simp)
      simp at this
  | cons x xs ih =>
    intro b hpa hpb hiff
    cases b with
    | nil =>
      have := (hiff x).1 (by simp)
      simp at this
    | cons y ys =>
      have hxy : x = y := by
        by_contra hne
        have h1 : x ∈ y :: ys := (hiff x).1 (by simp)
        have h2 : y ∈ x :: xs := (hiff y).2 (by simp)
        rcases List.mem_cons.1 h1 with h3 | h3
        · exact hne h3
        rcases List.mem_cons.1 h2 with h4 | h4
        · exact hne h4.symm
        have h5 := List.rel_of_pairwise_cons hpb h3
        have h6 := List.rel_of_pairwise_cons hpa h4
        omega
      subst hxy
      congr 1
      apply ih ys hpa.of_cons hpb.of_cons
      intro z
      constructor
      · intro hz
        have h1 : z ∈ x :: ys := (hiff z).1 (by simp [hz])
        rcases List.mem_cons.1 h1 with rfl | h2
        · have := List.rel_of_pairwise_cons hpa hz
          omega
        · exact h2
      · intro hz
        have h1 : z ∈ x :: xs := (hiff z).2 (by simp [hz])
        rcases List.mem_cons.1 h1 with rfl | h2
        · have := List.rel_of_pairwise_cons hpb hz
          omega
        · exact h2

theorem filterMap_congr_mem {α β : Type} (f g : α → Option β) :
    ∀ (l : List α), (∀ a ∈ l, f a = g a) → l.filterMap f = l.filterMap g := by
  intro l
  induction l with
  | nil => intro _; rfl
  | cons a as ih =>
    intro h
    rw [List.filterMap_cons, List.filterMap_cons, h a (by simp),
      ih (fun b hb => h b (by simp [hb]))]

theorem opbRun_inv {α : Type} :
    ∀ (pushes : List (ℕ × α)), (pushes.map Prod.fst).Nodup →
      (opbRun pushes).numWritten = firstGap (pushes.map Prod.fst) ∧
      (opbRun pushes).written = opbTarget pushes ∧
      List.Pairwise (fun a b : ℕ × α => a.1 < b.1) (opbRun pushes).queue ∧
      (opbRun pushes).queue.Perm
        (pushes.filter (fun q => decide (firstGap (pushes.map Prod.fst) ≤ q.1))) := by
  intro pushes
  induction pushes using List.reverseRecOn with
  | nil =>
    intro _
    have hg : firstGap ([] : List ℕ) = 0 :=
      Nat.le_zero.1 (firstGap_le_of_not_mem (by simp))
    exact ⟨by simp [opbRun, hg], by simp [opbRun, opbTarget, hg],
      by simp [opbRun], by simp [opbRun]⟩
  | append_singleton pushes x ih =>
    intro hnd2
    have hmapappend : (pushes ++ [x]).map Prod.fst = pushes.map Prod.fst ++ [x.1] := by
      simp
    have hndpre : (pushes.map Prod.fst).Nodup := by
      rw [hmapappend] at hnd2
      exact hnd2.of_append_left
    have hx : x.1 ∉ pushes.map Prod.fst := by
      rw [hmapappend] at hnd2
      intro hmem
      exact (List.disjoint_of_nodup_append hnd2) hmem (by simp)
    obtain ⟨ihn, ihw, ihp, ihq⟩ := ih hndpre
    have hxge : firstGap (pushes.map Prod.fst) ≤ x.1 := firstGap_le_of_not_mem hx
    set n0 := firstGap (pushes.map Prod.fst) with hn0def
    set n1 := firstGap ((pushes ++ [x]).map Prod.fst) with hn1def
    have h01 : n0 ≤ n1 := by
      by_contra hcon
      have h2 : n1 < n0 := by omega
      have h3 := mem_of_lt_firstGap h2
      have h4 : n1 ∈ (pushes ++ [x]).map Prod.fst := by
        rw [hmapappend]
        exact List.mem_append_left _ h3
      exact firstGap_not_mem _ h4
    have hq0 : ∀ y ∈ (opbRun pushes).queue, y ∈ pushes ∧ n0 ≤ y.1 := by
      intro y hy
      have h1 := ihq.mem_iff.1 hy
      rw [List.mem_filter] at h1
      exact ⟨h1.1, by simpa using h1.2⟩
    have hq1pair : List.Pairwise (fun a b : ℕ × α => a.1 < b.1)
        (opbInsert x (opbRun pushes).queue) := by
      apply opbInsert_pairwise x _ ihp
      intro y hy hcontra
      apply hx
      rw [hcontra]
      exact List.mem_map.2 ⟨y, (hq0 y hy).1, rfl⟩
    have hq1perm : (opbInsert x (opbRun pushes).queue).Perm
        ((pushes ++ [x]).filter (fun q => decide (n0 ≤ q.1))) := by
      rw [List.filter_append]
      have hfx : [x].filter (fun q => decide (n0 ≤ q.1)) = [x] := by
        simp [hxge]
      rw [hfx]
      exact (opbInsert_perm x _).trans
        ((ihq.cons x).trans (List.perm_append_singleton x _).symm)
    have hq1ge : ∀ y ∈ opbInsert x (opbRun pushes).queue, n0 ≤ y.1 := by
      intro y hy
      have h1 := hq1perm.mem_iff.1 hy
      rw [List.mem_filter] at h1
      simpa using h1.2
    have hq1memp : ∀ y ∈ opbInsert x (opbRun pushes).queue, y ∈ pushes ++ [x] := by
      intro y hy
      exact (List.mem_filter.1 (hq1perm.mem_iff.1 hy)).1
    have hq1cover : ∀ j, n0 ≤ j → j < n1 →
        j ∈ (opbInsert x (opbRun pushes).queue).map Prod.fst := by
      intro j hj1 hj2
      have hj3 : j ∈ (pushes ++ [x]).map Prod.fst := mem_of_lt_firstGap hj2
      rcases List.mem_map.1 hj3 with ⟨y, hy, rfl⟩
      have hyfil : y ∈ (pushes ++ [x]).filter (fun q => decide (n0 ≤ q.1)) :=
        List.mem_filter.2 ⟨hy, by simpa using hj1⟩
      exact List.mem_map.2 ⟨y, hq1perm.mem_iff.2 hyfil, rfl⟩
    have hq1notn1 : n1 ∉ (opbInsert x (opbRun pushes).queue).map Prod.fst := by
      intro hmem
      rcases List.mem_map.1 hmem with ⟨y, hy, hy2⟩
      have h1 : y ∈ pushes ++ [x] := hq1memp y hy
      have h2 : y.1 ∈ (pushes ++ [x]).map Prod.fst := List.mem_map.2 ⟨y, h1, rfl⟩
      rw [hy2] at h2
      exact firstGap_not_mem _ h2
    have hdrain := opbDrain_spec (opbInsert x (opbRun pushes).queue) n0 n1
      hq1pair hq1ge h01 hq1cover hq1notn1
    have hrun : opbRun (pushes ++ [x]) = opbPush (opbRun pushes) x := by
      rw [opbRun, opbRun, List.foldl_append]
      rfl
    have hseg1 : (List.range n0).filterMap (pushedAt (pushes ++ [x])) =
        opbTarget pushes := by
      rw [opbTarget, ← hn0def]
      apply filterMap_congr_mem
      intro i hi
      have hilt : i < n0 := List.mem_range.1 hi
      have himem : i ∈ pushes.map Prod.fst := mem_of_lt_firstGap hilt
      rw [pushedAt, pushedAt, List.find?_append]
      have hsome : (pushes.find? (fun q => q.1 == i)).isSome := by
        rw [List.find?_isSome]
        rcases List.mem_map.1 himem with ⟨y, hy, hy2⟩
        exact ⟨y, hy, by simpa using hy2⟩
      obtain ⟨z, hz⟩ := Option.isSome_iff_exists.1 hsome
      rw [hz]
      rfl
    have hmapfst : ((opbInsert x (opbRun pushes).queue).filter
          (fun y => decide (y.1 < n1))).map Prod.fst = List.range' n0 (n1 - n0) := by
      apply eq_of_pairwise_lt_mem_iff
      · rw [List.pairwise_map]
        exact List.Pairwise.sublist (List.filter_sublist _) hq1pair
      · exact List.pairwise_lt_range' _ _
      · intro j
        constructor
        · intro hj
          rcases List.mem_map.1 hj with ⟨y, hy, rfl⟩
          have h1 := List.mem_filter.1 hy
          have h2 : n0 ≤ y.1 := hq1ge y h1.1
          have h3 : y.1 < n1 := by simpa using h1.2
          rw [List.mem_range'_1]
          omega
        · intro hj
          rw [List.mem_range'_1] at hj
          have hj2 : j < n1 := by omega
          have hcov := hq1cover j hj.1 hj2
          rcases List.mem_map.1 hcov with ⟨y, hy, rfl⟩
          exact List.mem_map.2 ⟨y, List.mem_filter.2 ⟨hy, by simpa using hj2⟩, rfl⟩
    have hseg2 : (List.range' n0 (n1 - n0)).filterMap (pushedAt (pushes ++ [x])) =
        ((opbInsert x (opbRun pushes).queue).filter
          (fun y => decide (y.1 < n1))).map Prod.snd := by
      rw [← hmapfst, List.filterMap_map]
      have hpt : ∀ y ∈ (opbInsert x (opbRun pushes).queue).filter
          (fun y => decide (y.1 < n1)),
          (pushedAt (pushes ++ [x]) ∘ Prod.fst) y = (some ∘ Prod.snd) y := by
        intro y hy
        have h1 : y ∈ pushes ++ [x] := hq1memp y ((List.filter_sublist _).subset hy)
        have h2 := find?_eq_of_fst_nodup (pushes ++ [x]) hnd2 y.1 y.2 (by simpa using h1)
        simp [pushedAt, Function.comp, h2]
      rw [filterMap_congr_mem _ _ _ hpt, List.filterMap_eq_map]
    have hwr : opbTarget (pushes ++ [x]) =
        opbTarget pushes ++ ((opbInsert x (opbRun pushes).queue).filter
          (fun y => decide (y.1 < n1))).map Prod.snd := by
      have hT : opbTarget (pushes ++ [x]) =
          (List.range n1).filterMap (pushedAt (pushes ++ [x])) := by
        rw [opbTarget, ← hn1def]
      have hsplit : List.range n1 = List.range n0 ++ List.range' n0 (n1 - n0) := by
        rw [List.range_eq_range', List.range_eq_range']
        have happ := List.range'_append 0 n0 (n1 - n0) 1
        simp only [Nat.one_mul, Nat.zero_add] at happ
        have hcan : n1 - n0 + n0 = n1 := Nat.sub_add_cancel h01
        conv_lhs => rw [← hcan]
        exact happ.symm
      rw [hT, hsplit, List.filterMap_append, hseg1, hseg2]
    have hco : ∀ a : ℕ × α,
        (decide (n1 ≤ a.1) && decide (n0 ≤ a.1)) = decide (n1 ≤ a.1) := by
      intro a
      by_cases h : n1 ≤ a.1
      · have h2 : n0 ≤ a.1 := le_trans h01 h
        simp [h, h2]
      · simp [h]
    rw [hrun, opbPush, ihn, hdrain]
    refine ⟨rfl, ?_, ?_, ?_⟩
    · show (opbRun pushes).written ++
          ((opbInsert x (opbRun pushes).queue).filter
            (fun y => decide (y.1 < n1))).map Prod.snd =
          opbTarget (pushes ++ [x])
      rw [ihw, hwr]
    · show List.Pairwise _ ((opbInsert x (opbRun pushes).queue).filter
        (fun y => decide (n1 ≤ y.1)))
      exact List.Pairwise.sublist (List.filter_sublist _) hq1pair
    · show ((opbInsert x (opbRun pushes).queue).filter
          (fun y => decide (n1 ≤ y.1))).Perm _
      have hff : ((pushes ++ [x]).filter (fun q => decide (n0 ≤ q.1))).filter
          (fun y => decide (n1 ≤ y.1)) =
          (pushes ++ [x]).filter (fun q => decide (n1 ≤ q.1)) := by
        rw [List.filter_filter]
        exact List.filter_congr (fun a _ => hco a)
      rw [← hff]
      exact List.Perm.filter _ hq1perm

/-- C6: for every sequence of `push_back(index, element)` calls with
pairwise-distinct indices, after any prefix of the calls the underlying
writer has received exactly the elements whose indices form the longest
contiguous range `0..n-1` contained in the pushed index set, in ascending
index order.  In particular the writer receives elements in strictly
ascending contiguous index order starting at 0, and an element with index
`i` is never forwarded before all elements with indices below `i`. -/
theorem ordered_push_back_order {α : Type} (pushes : List (ℕ × α))
    (hnd : (pushes.map Prod.fst).Nodup) :
    ∀ n, (opbRun (pushes.take n)).written = opbTarget (pushes.take n) := by
  intro n
  have hsub : List.Sublist ((pushes.take n).map Prod.fst) (pushes.map Prod.fst) :=
    (List.take_sublist n pushes).map Prod.fst
  exact (opbRun_inv (pushes.take n) (hsub.nodup hnd)).2.1

/-- C6 witness: two out-of-order pushes; after both calls the writer holds
both elements in index order. -/
theorem ordered_push_back_order_witness :
    (([(1, 10), (0, 20)] : List (ℕ × ℕ)).map Prod.fst).Nodup ∧
    (opbRun (([(1, 10), (0, 20)] : List (ℕ × ℕ)).take 2)).written =
      opbTarget (([(1, 10), (0, 20)] : List (ℕ × ℕ)).take 2) :=
  ⟨by decide, ordered_push_back_order [(1, 10), (0, 20)] (by decide) 2⟩

/-! ## Theorems: fuzzy quantization (C2) -/

theorem l2norm_squaredR_nonneg (x y : List ℝ) : 0 ≤ l2norm_squaredR x y := by
  rw [l2norm_squaredR]
  apply List.sum_nonneg
  intro v hv
  rcases List.mem_map.1 hv with ⟨p, _, rfl⟩
  exact mul_self_nonneg _

/-- C2 (amended): for a non-empty vocabulary and `σ > 0`, the fuzzy
quantization of `x` sums to 1 (L1 normalisation), and its component `c` is
`exp(−d(x,c)⁴ / (2σ²))` divided by the sum of all such weights, where
`d(x,c)` is the EUCLIDEAN distance — the code squares the value of the
configured distance functor, which is already the squared-Euclidean
distance, so the Gaussian is applied to the 4th power of the distance, not
to its square. -/
theorem quantize_fuzzy_spec (sigma : ℝ) (sample : List ℝ) (voc : List (List ℝ))
    (hvoc : voc ≠ []) (hsig : 0 < sigma) :
    (quantize_fuzzy sigma sample voc).sum = 1 ∧
    ∀ c, c < voc.length →
      (quantize_fuzzy sigma sample voc).getD c 0 =
        Real.exp (-(Real.sqrt (l2norm_squaredR sample (voc.getD c [])) ^ 4) /
            (2 * sigma * sigma)) /
          (fuzzyWeights sigma sample voc).sum := by
  have hpos : ∀ e ∈ fuzzyWeights sigma sample voc, 0 < e := by
    intro e he
    rw [fuzzyWeights] at he
    rcases List.mem_map.1 he with ⟨w, hw, rfl⟩
    exact Real.exp_pos _
  have hne : fuzzyWeights sigma sample voc ≠ [] := by
    rw [fuzzyWeights]
    simpa using hvoc
  have hsum : 0 < (fuzzyWeights sigma sample voc).sum := List.sum_pos _ hpos hne
  constructor
  · rw [quantize_fuzzy]
    have hrw : ((fuzzyWeights sigma sample voc).map
        (fun e => e / (fuzzyWeights sigma sample voc).sum)).sum =
        ((fuzzyWeights sigma sample voc).map
          (fun e => e * ((fuzzyWeights sigma sample voc).sum)⁻¹)).sum := by
      simp [div_eq_mul_inv]
    rw [hrw, List.sum_map_mul_right]
    simp only [List.map_id']
    exact mul_inv_cancel₀ (ne_of_gt hsum)
  · intro c hc
    have hlenf : (fuzzyWeights sigma sample voc).length = voc.length := by
      rw [fuzzyWeights, List.length_map]
    have hc1 : c < ((fuzzyWeights sigma sample voc).map
        (fun e => e / (fuzzyWeights sigma sample voc).sum)).length := by
      rw [List.length_map, hlenf]
      exact hc
    have hc2 : c < (fuzzyWeights sigma sample voc).length := by
      rw [hlenf]
      exact hc
    rw [quantize_fuzzy, List.getD_eq_getElem _ _ hc1, List.getElem_map]
    congr 1
    have hval : (fuzzyWeights sigma sample voc).get ⟨c, hc2⟩ =
        Real.exp (-(l2norm_squaredR sample (voc.getD c []) *
          l2norm_squaredR sample (voc.getD c [])) / (2 * sigma * sigma)) := by
      have hcv : c < voc.length := hc
      rw [List.get_eq_getElem]
      simp only [fuzzyWeights, List.getElem_map]
      rw [List.getD_eq_getElem voc [] hcv]
    have hq0 : 0 ≤ l2norm_squaredR sample (voc.getD c []) :=
      l2norm_squaredR_nonneg _ _
    have hpow : Real.sqrt (l2norm_squaredR sample (voc.getD c [])) ^ 4 =
        l2norm_squaredR sample (voc.getD c []) *
          l2norm_squaredR sample (voc.getD c []) := by
      rw [show (4 : ℕ) = 2 * 2 from rfl, pow_mul, Real.sq_sqrt hq0, pow_two]
    rw [hpow]
    exact hval

/-- C2 witness: one centroid, `σ = 1`. -/
theorem quantize_fuzzy_spec_witness :
    (([[(0 : ℝ)]] : List (List ℝ)) ≠ []) ∧ (0 : ℝ) < 1 ∧
    ((quantize_fuzzy 1 [(0 : ℝ)] [[0]]).sum = 1 ∧
      ∀ c, c < ([[(0 : ℝ)]] : List (List ℝ)).length →
        (quantize_fuzzy 1 [(0 : ℝ)] [[0]]).getD c 0 =
          Real.exp (-(Real.sqrt (l2norm_squaredR [0] (([[(0 : ℝ)]] :
              List (List ℝ)).getD c [])) ^ 4) / (2 * 1 * 1)) /
            (fuzzyWeights 1 [(0 : ℝ)] [[0]]).sum) :=
  ⟨by simp, by norm_num, quantize_fuzzy_spec 1 [0] [[0]] (by simp) (by norm_num)⟩

/-- C2 counterexample: with centroids `[0]` and `[2]`, query `[0]` and
`σ = 1`, the code produces weights `exp(0)` and `exp(−16/2)` (squared
distance 4 squared again), while the claimed formula gives `exp(0)` and
`exp(−4/2)`; the normalised vectors differ. -/
theorem quantize_fuzzy_not_claim :
    quantize_fuzzy 1 [(0 : ℝ)] [[0], [2]] ≠ quantize_fuzzy_claim 1 [0] [[0], [2]] := by
  have hw : fuzzyWeights 1 [(0 : ℝ)] [[0], [2]] = [Real.exp 0, Real.exp (-8)] := by
    rw [fuzzyWeights]
    norm_num [l2norm_squaredR]
  have hwc : fuzzyWeightsClaim 1 [(0 : ℝ)] [[0], [2]] = [Real.exp 0, Real.exp (-2)] := by
    rw [fuzzyWeightsClaim]
    norm_num [l2norm_squaredR]
  intro heq
  rw [quantize_fuzzy, quantize_fuzzy_claim, hw, hwc] at heq
  simp only [List.map_cons, List.map_nil, List.sum_cons, List.sum_nil, Real.exp_zero,
    add_zero, List.cons.injEq, and_true] at heq
  have h8 : (0 : ℝ) < 1 + Real.exp (-8) := by positivity
  have h2 : (0 : ℝ) < 1 + Real.exp (-2) := by positivity
  have heq1 := heq.1
  have hcross := (div_eq_div_iff (ne_of_gt h8) (ne_of_gt h2)).1 heq1
  have hexp : Real.exp (-8) = Real.exp (-2) := by nlinarith [hcross]
  have := Real.exp_eq_exp.1 hexp
  norm_num at this

/-! ## Theorems: inverted-index finalization (C3, C10) -/

/-- C10: `finalize` computes the average document length with divisor
`_documentSizes.size()` and no zero guard; after adding at least one
histogram that divisor is non-zero, while on a freshly initialised index
(zero added documents) the divisor is exactly zero — the division-by-zero
branch is unreachable exactly when `N ≥ 1`. -/
theorem finalize_division_guard (V : ℕ) (hs : List (List ℝ)) (coll : InvertedIndex)
    (tf : InvertedIndex → ℕ → ℕ → ℕ → ℝ) (idf : InvertedIndex → ℕ → ℝ) :
    (finalize (hs.foldl addHistogram (InvertedIndex.init V)) coll tf idf).avgDocLen =
      (hs.foldl addHistogram (InvertedIndex.init V)).documentSizes.sum /
        finalizeDivisor (hs.foldl addHistogram (InvertedIndex.init V)) ∧
    (hs ≠ [] → finalizeDivisor (hs.foldl addHistogram (InvertedIndex.init V)) ≠ 0) ∧
    finalizeDivisor (InvertedIndex.init V) = 0 := by
  have hlen : ∀ (l : List (List ℝ)) (idx : InvertedIndex),
      (l.foldl addHistogram idx).documentSizes.length =
        idx.documentSizes.length + l.length := by
    intro l
    induction l with
    | nil => intro idx; simp
    | cons h t ih =>
      intro idx
      rw [List.foldl_cons, ih]
      simp [addHistogram]
      omega
  refine ⟨rfl, ?_, ?_⟩
  · intro hne
    rw [finalizeDivisor, hlen]
    have h0 : (InvertedIndex.init V).documentSizes.length = 0 := rfl
    rw [h0]
    simp only [Nat.zero_add, ne_eq, Nat.cast_eq_zero]
    intro hcon
    exact hne (List.length_eq_zero.1 hcon)
  · simp [finalizeDivisor, InvertedIndex.init]

/-- C10 witness: one added histogram makes the divisor non-zero. -/
theorem finalize_division_guard_witness :
    (([[(1 : ℝ)]] : List (List ℝ)) ≠ []) ∧
    finalizeDivisor (([[(1 : ℝ)]] : List (List ℝ)).foldl addHistogram
      (InvertedIndex.init 1)) ≠ 0 :=
  ⟨by simp, (finalize_division_guard 1 [[1]] (InvertedIndex.init 1)
    (fun _ _ _ _ => 1) (fun _ _ => 1)).2.1 (by simp)⟩

theorem zip_enum_map {β γ : Type} (L : List β) (F : ℕ × β → γ) :
    L.zip (L.enum.map F) = L.enum.map (fun e => (e.2, F e)) := by
  nth_rewrite 1 [show L = L.enum.map Prod.snd from (List.enum_map_snd L).symm]
  rw [List.zip_map']

theorem documentLengthSq_eq (idx coll : InvertedIndex)
    (tf : InvertedIndex → ℕ → ℕ → ℕ → ℝ) (idf : InvertedIndex → ℕ → ℝ) (d : ℕ) :
    documentLengthSq idx coll tf idf d =
      ((docTermPreWeights idx coll tf idf d).map
        (fun l => (l.map (fun w => w * w)).sum)).sum := by
  rw [documentLengthSq, preWeightList, zip_enum_map, docTermPreWeights,
    List.map_map, List.map_map]
  congr 1
  apply List.map_congr_left
  intro e _
  simp only [Function.comp]
  rw [zip_enum_map, List.filter_map, List.map_map, List.map_map]
  rfl

theorem docWeightVector_finalize (idx coll : InvertedIndex)
    (tf : InvertedIndex → ℕ → ℕ → ℕ → ℝ) (idf : InvertedIndex → ℕ → ℝ) (d : ℕ) :
    docWeightVector (finalize idx coll tf idf) d =
      ((docTermPreWeights idx coll tf idf d).map
        (fun l => l.map (fun w =>
          w / Real.sqrt (documentLengthSq idx coll tf idf d)))).flatten := by
  have hdfl : (finalize idx coll tf idf).docFrequencyList = idx.docFrequencyList := rfl
  have hdwl : (finalize idx coll tf idf).docWeightList =
      (idx.docFrequencyList.zip (preWeightList idx coll tf idf)).map
        (fun tp => (tp.1.zip tp.2).map
          (fun q => q.2 / Real.sqrt (documentLengthSq idx coll tf idf q.1.1))) := rfl
  rw [docWeightVector, hdfl, hdwl, preWeightList, zip_enum_map, List.map_map,
    zip_enum_map, List.map_map, docTermPreWeights, List.map_map]
  congr 1
  apply List.map_congr_left
  intro e _
  simp only [Function.comp]
  rw [zip_enum_map, List.map_map, zip_enum_map, List.filter_map, List.map_map,
    List.map_map]
  apply List.map_congr_left
  intro lp hlp
  have hd : lp.2.1 = d := by
    have := (List.mem_filter.1 hlp).2
    simpa using this
  simp only [Function.comp]
  rw [hd]

/-- C3 (amended): after `finalize`, for every document whose pre-normalisation
tf·idf weight vector is non-zero (equivalently, whose accumulated squared
weight is positive — in particular any document with at least one non-zero
term whenever the tf·idf weights of its occurring terms are non-zero), the
L2 norm of the stored weight vector equals 1. -/
theorem finalize_l2_norm (idx coll : InvertedIndex)
    (tf : InvertedIndex → ℕ → ℕ → ℕ → ℝ) (idf : InvertedIndex → ℕ → ℝ) (d : ℕ)
    (hpos : 0 < documentLengthSq idx coll tf idf d) :
    l2norm (docWeightVector (finalize idx coll tf idf) d) = 1 := by
  rw [docWeightVector_finalize, l2norm, List.map_flatten, List.sum_flatten,
    List.map_map, List.map_map]
  have hterm : ∀ l ∈ docTermPreWeights idx coll tf idf d,
      ((List.sum ∘ List.map (fun x => x * x)) ∘
        (fun l2 : List ℝ => l2.map (fun w =>
          w / Real.sqrt (documentLengthSq idx coll tf idf d)))) l =
        (l.map (fun w => w * w)).sum * (documentLengthSq idx coll tf idf d)⁻¹ := by
    intro l _
    simp only [Function.comp]
    rw [List.map_map]
    have hw : ∀ w : ℝ, ((fun x => x * x) ∘ (fun w =>
        w / Real.sqrt (documentLengthSq idx coll tf idf d))) w =
        (w * w) * (documentLengthSq idx coll tf idf d)⁻¹ := by
      intro w
      simp only [Function.comp]
      rw [div_mul_div_comm, Real.mul_self_sqrt (le_of_lt hpos), div_eq_mul_inv]
    rw [List.map_congr_left (fun w _ => hw w), List.sum_map_mul_right]
  rw [List.map_congr_left hterm, List.sum_map_mul_right]
  rw [← documentLengthSq_eq]
  rw [mul_inv_cancel₀ (ne_of_gt hpos), Real.sqrt_one]

/-- C3 witness: one document with histogram `[1]`, constant tf and idf 1:
the squared pre-weight is 1 > 0 and the normalised vector has norm 1. -/
theorem finalize_l2_norm_witness :
    0 < documentLengthSq (addHistogram (InvertedIndex.init 1) [1])
      (addHistogram (InvertedIndex.init 1) [1])
      (fun _ _ _ _ => 1) (fun _ _ => 1) 0 ∧
    l2norm (docWeightVector
      (finalize (addHistogram (InvertedIndex.init 1) [1])
        (addHistogram (InvertedIndex.init 1) [1])
        (fun _ _ _ _ => 1) (fun _ _ => 1)) 0) = 1 := by
  have hpos : 0 < documentLengthSq (addHistogram (InvertedIndex.init 1) [1])
      (addHistogram (InvertedIndex.init 1) [1])
      (fun _ _ _ _ => 1) (fun _ _ => 1) 0 := by
    norm_num [documentLengthSq, preWeightList, addHistogram, InvertedIndex.init]
  exact ⟨hpos, finalize_l2_norm _ _ _ _ 0 hpos⟩

/-- C3 counterexample: the claim as stated fails for tf·idf functions that
send an occurring term's weight to zero (e.g. the idf value `log(N/f_t)`
of a term occurring in every document, here idf ≡ 0): document 0 has the
non-zero term 0, yet after `finalize` its stored weight vector is `[0]`
with L2 norm 0, not 1. -/
theorem finalize_l2_norm_counterexample :
    (addHistogram (InvertedIndex.init 1) [(1 : ℝ)]).docFrequencyList = [[(0, 1)]] ∧
    l2norm (docWeightVector
      (finalize (addHistogram (InvertedIndex.init 1) [(1 : ℝ)])
        (addHistogram (InvertedIndex.init 1) [(1 : ℝ)])
        (fun _ _ _ _ => 1) (fun _ _ => 0)) 0) = 0 ∧ (0 : ℝ) ≠ 1 := by
  refine ⟨?_, ?_, by norm_num⟩
  · norm_num [addHistogram, InvertedIndex.init]
  · have hv : docWeightVector
        (finalize (addHistogram (InvertedIndex.init 1) [(1 : ℝ)])
          (addHistogram (InvertedIndex.init 1) [(1 : ℝ)])
          (fun _ _ _ _ => 1) (fun _ _ => 0)) 0 = [0] := by
      rw [docWeightVector_finalize]
      norm_num [docTermPreWeights, addHistogram, InvertedIndex.init]
    rw [hv]
    simp [l2norm]

/-! ## Theorems: query top-K selection (C4) -/

theorem orderedInsert_of_forall_le (x : ℝ × ℕ) :
    ∀ (t : List (ℝ × ℕ)), (∀ z ∈ t, pLe x z) → List.orderedInsert pLe x t = x :: t := by
  intro t h
  cases t with
  | nil => rfl
  | cons z zs => exact List.orderedInsert_of_le pLe zs (h z (by simp))

theorem tail_orderedInsert_drop (x : ℝ × ℕ) :
    ∀ (s : List (ℝ × ℕ)), List.Sorted pLe s → ∀ (k : ℕ),
      (List.orderedInsert pLe x (s.drop k)).tail =
        (List.orderedInsert pLe x s).drop (k + 1) := by
  intro s
  induction s with
  | nil =>
    intro _ k
    simp
  | cons y t ih =>
    intro hs k
    cases k with
    | zero =>
      simp only [List.drop_zero]
      rw [List.drop_one]
    | succ k2 =>
      rw [List.drop_succ_cons, ih hs.of_cons k2]
      by_cases hxy : pLe x y
      · rw [List.orderedInsert_of_le pLe t hxy, List.drop_succ_cons, List.drop_succ_cons]
        have hxt : ∀ z ∈ t, pLe x z := fun z hz =>
          IsTrans.trans x y z hxy (List.rel_of_sorted_cons hs z hz)
        rw [orderedInsert_of_forall_le x t hxt, List.drop_succ_cons]
      · simp only [List.orderedInsert]
        rw [if_neg hxy, List.drop_succ_cons]

theorem pqStep_drop (R : ℕ) (x : ℝ × ℕ) (s : List (ℝ × ℕ)) (hs : List.Sorted pLe s) :
    pqStep R (s.drop (s.length - R)) x =
      (List.orderedInsert pLe x s).drop (s.length + 1 - R) := by
  rw [pqStep]
  by_cases hlen : s.length < R
  · have h1 : s.length - R = 0 := by omega
    rw [h1, List.drop_zero]
    have hc : ¬ R < (List.orderedInsert pLe x s).length := by
      rw [List.orderedInsert_length]
      omega
    rw [if_neg hc]
    have h2 : s.length + 1 - R = 0 := by omega
    rw [h2, List.drop_zero]
  · have hc : R < (List.orderedInsert pLe x (s.drop (s.length - R))).length := by
      rw [List.orderedInsert_length, List.length_drop]
      omega
    rw [if_pos hc, tail_orderedInsert_drop x s hs (s.length - R)]
    congr 1
    omega

theorem foldl_pqStep (R : ℕ) :
    ∀ (ps : List (ℝ × ℕ)), ps.foldl (pqStep R) [] =
      (List.insertionSort pLe ps).drop (ps.length - R) := by
  intro ps
  induction ps using List.reverseRecOn with
  | nil => simp
  | append_singleton ps x ih =>
    rw [List.foldl_append, List.foldl_cons, List.foldl_nil, ih]
    have hsorted : List.Sorted pLe (List.insertionSort pLe ps) :=
      List.sorted_insertionSort pLe ps
    have hstep := pqStep_drop R x (List.insertionSort pLe ps) hsorted
    rw [List.length_insertionSort] at hstep
    rw [hstep]
    have hsort2 : List.insertionSort pLe (ps ++ [x]) =
        List.orderedInsert pLe x (List.insertionSort pLe ps) := by
      have hp1 : (List.insertionSort pLe (ps ++ [x])).Perm
          (List.orderedInsert pLe x (List.insertionSort pLe ps)) :=
        ((List.perm_insertionSort pLe (ps ++ [x])).trans
          ((List.perm_append_singleton x ps).trans
            ((List.perm_insertionSort pLe ps).symm.cons x))).trans
          (List.perm_orderedInsert pLe x _).symm
      have hs1 : List.Sorted pLe (List.insertionSort pLe (ps ++ [x])) :=
        List.sorted_insertionSort pLe _
      have hs2 : List.Sorted pLe (List.orderedInsert pLe x (List.insertionSort pLe ps)) :=
        (List.sorted_insertionSort pLe ps).orderedInsert x _
      exact List.eq_of_perm_of_sorted hp1 hs1 hs2
    rw [hsort2]
    congr 1
    rw [List.length_append]
    simp

theorem pLe_ne_lt {a b : ℝ × ℕ} (h : pLe a b) (hne : a ≠ b) : pLt a b := by
  rw [pLe] at h
  rw [pLt]
  rcases h with h | ⟨h1, h2⟩
  · exact Or.inl h
  · rcases Nat.lt_or_ge a.2 b.2 with h3 | h3
    · exact Or.inr ⟨h1, h3⟩
    · exact absurd (Prod.ext h1 (le_antisymm h2 h3)) hne

/-- C4: on a finalized index with `N` documents (all posting doc-ids in
range) and a query histogram of the index's dimension, `query` returns
exactly `min(R, N)` results; each returned pair is an entry
`(accumulator[d], d)` of the accumulator array; the results are in strictly
descending pair order (score first, doc id breaking ties); and every
non-returned accumulator entry is strictly below every returned one under
that order — i.e. the result is the top `min(R, N)` of the accumulator
array. -/
theorem query_top_results (idx : InvertedIndex)
    (tf : InvertedIndex → ℕ → ℕ → ℕ → ℝ) (idf : InvertedIndex → ℕ → ℝ)
    (histogram : List ℝ) (R : ℕ)
    (hfin : idx.finalized = true)
    (hwf : ∀ lst ∈ idx.docFrequencyList, ∀ p ∈ lst, p.1 < idx.numDocuments)
    (hdim : histogram.length = idx.numWords) :
    (query idx tf idf histogram R).length = min R idx.numDocuments ∧
    (∀ p ∈ query idx tf idf histogram R,
      p.2 < idx.numDocuments ∧ p.1 = queryAcc idx tf idf histogram p.2) ∧
    List.Pairwise (fun a b => pLt b a) (query idx tf idf histogram R) ∧
    (∀ p ∈ query idx tf idf histogram R, ∀ i, i < idx.numDocuments →
      (queryAcc idx tf idf histogram i, i) ∉ query idx tf idf histogram R →
      pLt (queryAcc idx tf idf histogram i, i) p) := by
  have hq : query idx tf idf histogram R =
      ((List.insertionSort pLe ((List.range idx.numDocuments).map
        (fun i => (queryAcc idx tf idf histogram i, i)))).drop
          (idx.numDocuments - min R idx.numDocuments)).reverse := by
    rw [query, foldl_pqStep, List.length_map, List.length_range,
      List.take_of_length_le]
    rw [List.length_drop, List.length_insertionSort, List.length_map,
      List.length_range]
    omega
  have hperm : (List.insertionSort pLe ((List.range idx.numDocuments).map
      (fun i => (queryAcc idx tf idf histogram i, i)))).Perm
      ((List.range idx.numDocuments).map
        (fun i => (queryAcc idx tf idf histogram i, i))) :=
    List.perm_insertionSort pLe _
  have hsorted : List.Sorted pLe (List.insertionSort pLe
      ((List.range idx.numDocuments).map
        (fun i => (queryAcc idx tf idf histogram i, i)))) :=
    List.sorted_insertionSort pLe _
  have hnodup : ((List.range idx.numDocuments).map
      (fun i => (queryAcc idx tf idf histogram i, i))).Nodup := by
    apply List.Nodup.map ?_ (List.nodup_range _)
    intro a b hab
    simpa using congrArg Prod.snd hab
  have hsnodup : (List.insertionSort pLe ((List.range idx.numDocuments).map
      (fun i => (queryAcc idx tf idf histogram i, i)))).Nodup :=
    hperm.nodup_iff.2 hnodup
  have hspair : List.Pairwise pLt (List.insertionSort pLe
      ((List.range idx.numDocuments).map
        (fun i => (queryAcc idx tf idf histogram i, i)))) :=
    (hsorted.and hsnodup).imp (fun h => pLe_ne_lt h.1 h.2)
  have hlens : (List.insertionSort pLe ((List.range idx.numDocuments).map
      (fun i => (queryAcc idx tf idf histogram i, i)))).length =
      idx.numDocuments := by
    rw [List.length_insertionSort, List.length_map, List.length_range]
  refine ⟨?_, ?_, ?_, ?_⟩
  · rw [hq, List.length_reverse, List.length_drop, hlens]
    omega
  · intro p hp
    rw [hq, List.mem_reverse] at hp
    have h1 : p ∈ List.insertionSort pLe ((List.range idx.numDocuments).map
        (fun i => (queryAcc idx tf idf histogram i, i))) :=
      (List.drop_sublist _ _).subset hp
    have h2 := hperm.subset h1
    rcases List.mem_map.1 h2 with ⟨i, hi, rfl⟩
    exact ⟨by simpa using List.mem_range.1 hi, rfl⟩
  · rw [hq, List.pairwise_reverse]
    exact List.Pairwise.sublist (List.drop_sublist _ _) hspair
  · intro p hp i hiN hnotin
    rw [hq, List.mem_reverse] at hp
    rw [hq, List.mem_reverse] at hnotin
    have hqmem : (queryAcc idx tf idf histogram i, i) ∈
        List.insertionSort pLe ((List.range idx.numDocuments).map
          (fun i => (queryAcc idx tf idf histogram i, i))) := by
      apply hperm.mem_iff.2
      exact List.mem_map.2 ⟨i, List.mem_range.2 hiN, rfl⟩
    have hqtake : (queryAcc idx tf idf histogram i, i) ∈
        (List.insertionSort pLe ((List.range idx.numDocuments).map
          (fun i => (queryAcc idx tf idf histogram i, i)))).take
            (idx.numDocuments - min R idx.numDocuments) := by
      have hsplit := List.take_append_drop
        (idx.numDocuments - min R idx.numDocuments)
        (List.insertionSort pLe ((List.range idx.numDocuments).map
          (fun i => (queryAcc idx tf idf histogram i, i))))
      rw [← hsplit] at hqmem
      rcases List.mem_append.1 hqmem with h | h
      · exact h
      · exact absurd h hnotin
    have hsplitpair : List.Pairwise pLe
        ((List.insertionSort pLe ((List.range idx.numDocuments).map
          (fun i => (queryAcc idx tf idf histogram i, i)))).take
            (idx.numDocuments - min R idx.numDocuments) ++
          (List.insertionSort pLe ((List.range idx.numDocuments).map
            (fun i => (queryAcc idx tf idf histogram i, i)))).drop
              (idx.numDocuments - min R idx.numDocuments)) := by
      rw [List.take_append_drop]
      exact hsorted
    have hle := (List.pairwise_append.1 hsplitpair).2.2 _ hqtake p hp
    have hne : (queryAcc idx tf idf histogram i, i) ≠ p := by
      intro hcon
      rw [hcon] at hqtake
      have hd : (List.insertionSort pLe ((List.range idx.numDocuments).map
          (fun i => (queryAcc idx tf idf histogram i, i)))).Nodup := hsnodup
      rw [← List.take_append_drop (idx.numDocuments - min R idx.numDocuments)
        (List.insertionSort pLe ((List.range idx.numDocuments).map
          (fun i => (queryAcc idx tf idf histogram i, i))))] at hd
      have hdisj := List.disjoint_of_nodup_append hd
      exact hdisj hqtake (hcon ▸ hp)
    exact pLe_ne_lt hle hne

/-- C4 witness: one-document index over one word, histogram `[1]`, constant
tf/idf, `R = 1`. -/
theorem query_top_results_witness :
    ((finalize (addHistogram (InvertedIndex.init 1) [(1 : ℝ)])
        (addHistogram (InvertedIndex.init 1) [(1 : ℝ)])
        (fun _ _ _ _ => 1) (fun _ _ => 1)).finalized = true) ∧
    (∀ lst ∈ (finalize (addHistogram (InvertedIndex.init 1) [(1 : ℝ)])
        (addHistogram (InvertedIndex.init 1) [(1 : ℝ)])
        (fun _ _ _ _ => 1) (fun _ _ => 1)).docFrequencyList,
      ∀ p ∈ lst, p.1 < (finalize (addHistogram (InvertedIndex.init 1) [(1 : ℝ)])
        (addHistogram (InvertedIndex.init 1) [(1 : ℝ)])
        (fun _ _ _ _ => 1) (fun _ _ => 1)).numDocuments) ∧
    (([(1 : ℝ)] : List ℝ).length = (finalize (addHistogram (InvertedIndex.init 1) [(1 : ℝ)])
        (addHistogram (InvertedIndex.init 1) [(1 : ℝ)])
        (fun _ _ _ _ => 1) (fun _ _ => 1)).numWords) ∧
    (query (finalize (addHistogram (InvertedIndex.init 1) [(1 : ℝ)])
        (addHistogram (InvertedIndex.init 1) [(1 : ℝ)])
        (fun _ _ _ _ => 1) (fun _ _ => 1)) (fun _ _ _ _ => 1) (fun _ _ => 1)
        [(1 : ℝ)] 1).length =
      min 1 (finalize (addHistogram (InvertedIndex.init 1) [(1 : ℝ)])
        (addHistogram (InvertedIndex.init 1) [(1 : ℝ)])
        (fun _ _ _ _ => 1) (fun _ _ => 1)).numDocuments := by
  have hwf : ∀ lst ∈ (finalize (addHistogram (InvertedIndex.init 1) [(1 : ℝ)])
      (addHistogram (InvertedIndex.init 1) [(1 : ℝ)])
      (fun _ _ _ _ => 1) (fun _ _ => 1)).docFrequencyList,
      ∀ p ∈ lst, p.1 < (finalize (addHistogram (InvertedIndex.init 1) [(1 : ℝ)])
        (addHistogram (InvertedIndex.init 1) [(1 : ℝ)])
        (fun _ _ _ _ => 1) (fun _ _ => 1)).numDocuments := by
    norm_num [finalize, applyTfidf, addHistogram, InvertedIndex.init]
  exact ⟨rfl, hwf, rfl,
    (query_top_results _ (fun _ _ _ _ => 1) (fun _ _ => 1) [1] 1 rfl hwf rfl).1⟩

/-! ## Theorems: GIST filter peak frequencies (C8) -/

/-- C8 (amended): the Gabor filter for frequency index `i` is centred at
`f_i = fmax′ · 2^(−i·Δf_oct)` where `fmax′ = E·fmax/(E+P)` is the
padding-adjusted maximum peak frequency, `E = max(W+P, H+P)`; not at
`fmax · 2^(−i·Δf_oct)` with the configured `fmax` itself. -/
theorem gist_peak_formula (p : GistParams) (i : ℕ) :
    curPeak p i = pad_max_peak_freq p * (2 : ℝ) ^ (-(i : ℝ) * p.delta_freq_oct) := by
  rw [curPeak, delta_freq, div_eq_mul_inv]
  congr 1
  rw [← Real.rpow_natCast ((2 : ℝ) ^ p.delta_freq_oct) i,
    ← Real.rpow_mul (by norm_num : (0 : ℝ) ≤ 2)]
  rw [show -(i : ℝ) * p.delta_freq_oct = -(p.delta_freq_oct * (i : ℝ)) by ring]
  rw [Real.rpow_neg (by norm_num : (0 : ℝ) ≤ 2)]

/-- C8 counterexample: at the default configuration (padding 64, working
size 256×256, `fmax = 0.3`) the filter for frequency index 0 is centred at
`320·0.3/384 = 0.25`, not at `fmax·2^0 = 0.3`. -/
theorem gist_peak_not_fmax :
    curPeak ⟨64, 256, 256, 0.3, 0.88752527⟩ 0 ≠
      specPeak ⟨64, 256, 256, 0.3, 0.88752527⟩ 0 := by
  rw [curPeak, specPeak, pow_zero]
  have hz : (-((0 : ℕ) : ℝ) * (0.88752527 : ℝ)) = 0 := by norm_num
  rw [hz, Real.rpow_zero]
  rw [pad_max_peak_freq, max_extend, gist_width, gist_height]
  norm_num

/-- C7 witness: two files, `k = 1`, shuffle `[1, 0]`. -/
theorem random_sample_spec_witness :
    (([1, 0] : List ℕ).Perm (List.range (["a", "b"] : List String).length)) ∧
    ((random_sample ["a", "b"] 1 [1, 0]).length = min 1 (["a", "b"] : List String).length ∧
      (∀ x ∈ random_sample ["a", "b"] 1 [1, 0], x ∈ (["a", "b"] : List String)) ∧
      List.Sublist (random_sample ["a", "b"] 1 [1, 0]) ["a", "b"]) :=
  ⟨by decide, random_sample_spec ["a", "b"] 1 [1, 0] (by decide)⟩

end Imdb
